import Mathlib

/-!
Verification development for the Space-Time A* MAPF planner
(`python/planner_space_time_a_star.py`).

The Python source is shallowly embedded: the reservation table (a Python
`set` of integer triples plus a `dict` mapping each triple to the robot id
that placed it) becomes a `Finset` of keys plus an association list; every
method that mutates `self` becomes a function from the state to the new
state; methods that can raise return `Except`/`Option`; unbounded `while`
loops take a fuel argument.

Cells and time steps are Python ints, embedded as `ℤ`.  Robot ids are `ℕ`.
-/

namespace STAPlanner

/-- A reservation key, exactly the tuples the source stores in
`self.reservation` / `self.edge_hash_to_robot_id`: either a cell hash
`(cell, -1, t)` or an edge hash `(from, to, t)`. -/
abbrev RKey := ℤ × ℤ × ℤ

/-- Association-list embedding of a Python `dict` lookup: the value stored
at `k`, if present. -/
def dictLookup (m : List (RKey × ℕ)) (k : RKey) : Option ℕ :=
  match m with
  | [] => none
  | (k', v) :: rest => if k' = k then some v else dictLookup rest k

/-- Association-list embedding of Python `dict` assignment `m[k] = v`:
replaces the value in place when the key exists (Python dicts keep the
original insertion position), appends otherwise. -/
def dictUpsert (m : List (RKey × ℕ)) (k : RKey) (v : ℕ) : List (RKey × ℕ) :=
  match m with
  | [] => [(k, v)]
  | (k', v') :: rest => if k' = k then (k, v) :: rest else (k', v') :: dictUpsert rest k v

/-- The reservation table: `reservation` embeds the Python set
`self.reservation`, `owner` embeds the dict `self.edge_hash_to_robot_id`. -/
structure RTable where
  reservation : Finset RKey
  owner : List (RKey × ℕ)
deriving DecidableEq

/-- The table both coordinators start from (`self.reservation = set()`,
`self.edge_hash_to_robot_id = {}`). -/
def RTable.empty : RTable := ⟨∅, []⟩

/-- `SpaceTimeAStarPlanner.debug_mode` (class attribute, `False`). -/
def debug_mode : Bool := false

/-- The two ways `add_reservation` can raise: the explicit `RuntimeError`
for a reservation conflict, or a `KeyError` from reading
`edge_hash_to_robot_id[cell_hash]` when the set and the dict are out of
sync (never happens on well-formed tables). -/
inductive ResError
  | conflict
  | keyError
deriving DecidableEq

/-- `SpaceTimeAStarPlanner.is_reserved(start, end, time_step, current_robot_id)`.
The dict access `self.edge_hash_to_robot_id[(end, -1, time_step)]` is
embedded as `dictLookup`; on a malformed table (key in the set but not in
the dict, where Python would raise) the embedding answers `true`, which is
irrelevant on the well-formed tables all call sites maintain. -/
def isReserved (rt : RTable) (s e t : ℤ) (robot : Option ℕ) : Bool :=
  let e := if e = -1 then s else e
  (decide ((e, -1, t) ∈ rt.reservation) &&
    match robot with
    | none => true
    | some r => decide (dictLookup rt.owner (e, -1, t) ≠ some r))
  || decide ((e, s, t) ∈ rt.reservation)

/-- The unconditional insertion part of `add_reservation`: add the cell
hash `(e, -1, t)` (and, when `start != end`, also the edge hash
`(s, e, t)`) to the set and point both dict entries at `r`. `e` is
already normalised (`≠ -1`). -/
def addResCore (rt : RTable) (s e t : ℤ) (r : ℕ) : RTable :=
  if s ≠ e then
    ⟨insert (s, e, t) (insert (e, -1, t) rt.reservation),
      dictUpsert (dictUpsert rt.owner (e, -1, t) r) (s, e, t) r⟩
  else
    ⟨insert (e, -1, t) rt.reservation, dictUpsert rt.owner (e, -1, t) r⟩

/-- `SpaceTimeAStarPlanner.add_reservation(start, end, time_step, robot_index,
fail_if_already_reserved)`.  The source raises (before any mutation) iff
`(debug_mode or fail_if_already_reserved)` and the cell hash is already
reserved by a different robot; on `.error` the table is therefore the
unchanged input table. -/
def addReservation (rt : RTable) (s e t : ℤ) (r : ℕ) (fail : Bool) :
    Except ResError RTable :=
  let e := if e = -1 then s else e
  let cellKey : RKey := (e, -1, t)
  if (debug_mode || fail) && decide (cellKey ∈ rt.reservation) then
    match dictLookup rt.owner cellKey with
    | none => .error .keyError
    | some o => if o ≠ r then .error .conflict else .ok (addResCore rt s e t r)
  else .ok (addResCore rt s e t r)

/-- A non-strict `add_reservation` call (`fail_if_already_reserved=False`).
Since `debug_mode` is `false` the checked branch never raises; the
`.error` arm is unreachable. -/
def addResNS (rt : RTable) (s e t : ℤ) (r : ℕ) : RTable :=
  match addReservation rt s e t r false with
  | .ok rt' => rt'
  | .error _ => rt

/-- The keys of the dict entries whose value is `r`, in dict order — the
`revoked_reservations` list collected by
`revoke_all_reservations_of_robot`. -/
def ownedKeys (m : List (RKey × ℕ)) (r : ℕ) : List RKey :=
  match m with
  | [] => []
  | (k, v) :: rest => if v = r then k :: ownedKeys rest r else ownedKeys rest r

/-- The dict after `revoke_all_reservations_of_robot` deleted every entry
owned by `r`. -/
def removeOwned (m : List (RKey × ℕ)) (r : ℕ) : List (RKey × ℕ) :=
  match m with
  | [] => []
  | (k, v) :: rest =>
    if v = r then removeOwned rest r else (k, v) :: removeOwned rest r

/-- `SpaceTimeAStarPlanner.revoke_all_reservations_of_robot(robot_id)`:
walks the dict items in order, removes every entry owned by `robot_id`
from both the set and the dict, and returns the removed keys.  (The
`set.remove` call would raise on a key missing from the set; on the
well-formed tables the planner maintains, every dict key is in the set.) -/
def revokeAll (rt : RTable) (r : ℕ) : List RKey × RTable :=
  let revoked := ownedKeys rt.owner r
  ⟨revoked,
    ⟨revoked.foldl (fun s k => s.erase k) rt.reservation,
      removeOwned rt.owner r⟩⟩

/-- Polymorphic association-list lookup (for the A* `parent` dict). -/
def alistLookup {α β : Type} [DecidableEq α] (m : List (α × β)) (k : α) : Option β :=
  match m with
  | [] => none
  | (k', v) :: rest => if k' = k then some v else alistLookup rest k

/-- Polymorphic association-list assignment (for the A* `parent` dict). -/
def alistUpsert {α β : Type} [DecidableEq α] (m : List (α × β)) (k : α) (v : β) :
    List (α × β) :=
  match m with
  | [] => [(k, v)]
  | (k', v') :: rest =>
    if k' = k then (k, v) :: rest else (k', v') :: alistUpsert rest k v

/-! ### Environment (external collaborator, read-only per tick) -/

/-- One entry of `env.curr_states`: the robot's cell index and facing. -/
structure RobotState where
  location : ℤ
  orientation : ℤ
deriving DecidableEq

/-- The per-tick environment view the planner reads (`self.env`): grid
shape, obstacle predicate, robot states, and goal queues
(`goal_locations[r]` is a list of `(cell, _)` pairs; the planner reads
`goal_locations[r][0][0]`). -/
structure Env where
  rows : ℤ
  cols : ℤ
  blocked : ℤ → Bool
  numAgents : ℕ
  currStates : List RobotState
  goalLocations : List (List (ℤ × ℤ))

/-- `self.env.curr_states[r]`.  An out-of-range read, which Python would
reject, returns a dummy state; theorems restrict robot ids to
`numAgents` and assume `numAgents = currStates.length`. -/
def stateOf (env : Env) (r : ℕ) : RobotState := env.currStates.getD r ⟨0, 0⟩

/-- `self.env.goal_locations[r]`. -/
def goalsOf (env : Env) (r : ℕ) : List (ℤ × ℤ) := env.goalLocations.getD r []

/-- Modelled from the spec: the wire encoding of `models.Action` (the
`models` module is not under `src/`): FW=0, CR=1, CCR=2, WAIT=3 (§6). -/
def actFW : ℕ := 0

/-- Modelled from the spec: rotate clockwise. -/
def actCR : ℕ := 1

/-- Modelled from the spec: rotate counter-clockwise. -/
def actCCR : ℕ := 2

/-- Modelled from the spec: wait in place. -/
def actW : ℕ := 3

/-- Modelled from the spec: `util.get_valid_forwards_neighbor_cell` (the
`util` module is not under `src/`) — the forward-successor rule of §6:
E→(r,c+1), S→(r+1,c), W→(r,c-1), N→(r-1,c); `None` when the target is
out of bounds or an obstacle. -/
def getValidForwardsNeighborCell (env : Env) (pos ori : ℤ) : Option ℤ :=
  let row := pos / env.cols
  let col := pos % env.cols
  let tgt : ℤ × ℤ :=
    if ori = 0 then (row, col + 1)
    else if ori = 1 then (row + 1, col)
    else if ori = 2 then (row, col - 1)
    else (row - 1, col)
  if 0 ≤ tgt.1 ∧ tgt.1 < env.rows ∧ 0 ≤ tgt.2 ∧ tgt.2 < env.cols ∧
      env.blocked (tgt.1 * env.cols + tgt.2) = false then
    some (tgt.1 * env.cols + tgt.2)
  else none

/-- Modelled from the spec: `util.get_neighbors` (not under `src/`) — the
legal motions of §4.C: forward when the cell ahead exists and is free,
plus both rotations.  The repository's unit test fixes the rotation
order (`(ori+3) % 4` before `(ori+1) % 4`); forward is assumed first. -/
def getNeighbors (env : Env) (pos ori : ℤ) : List (ℤ × ℤ) :=
  (match getValidForwardsNeighborCell env pos ori with
    | some f => [(f, ori)]
    | none => []) ++ [(pos, (ori + 3) % 4), (pos, (ori + 1) % 4)]

/-- Modelled from the spec: `util.get_robot_position_map` (not under
`src/`) — `robot_position_map[cell] == 1` iff some robot currently
occupies `cell`. -/
def robotAt (env : Env) (cell : ℤ) : Bool :=
  env.currStates.any (fun st => st.location = cell)

/-! ### Action encoder (`update_next_actions`) -/

/-- The action one iteration of `update_next_actions` writes when
comparing `(new_location, new_orientation)` against the previous pose,
`none` when the source writes nothing (pose unchanged without the wait
overlay, or a facing jump of ±2, impossible on real paths). -/
def encodeWrite (uws : Bool) (prevLoc prevOri newLoc newOri : ℤ) : Option ℕ :=
  if uws = true ∧ newLoc = prevLoc ∧ newOri = prevOri then some actW
  else if ¬ newLoc = prevLoc then some actFW
  else if ¬ newOri = prevOri then
    if newOri - prevOri = 1 ∨ newOri - prevOri = -3 then some actCR
    else if newOri - prevOri = -1 ∨ newOri - prevOri = 3 then some actCCR
    else none
  else none

/-- `self.next_actions[i][robot] = a`. -/
def setAct (tape : List (List ℕ)) (i robot a : ℕ) : List (List ℕ) :=
  tape.set i ((tape.getD i []).set robot a)

/-- Apply one optional encoder write to the tape. -/
def applyWrite (tape : List (List ℕ)) (i robot : ℕ) : Option ℕ → List (List ℕ)
  | some a => setAct tape i robot a
  | none => tape

/-- The loop of `update_next_actions`, walking the truncated path while
tracking the previous pose and the row index. -/
def updateActionsGo (robot : ℕ) (uws : Bool) :
    List (List ℕ) → List (ℤ × ℤ) → ℤ → ℤ → ℕ → List (List ℕ)
  | tape, [], _, _, _ => tape
  | tape, (l, o) :: rest, pl, po, i =>
    updateActionsGo robot uws
      (applyWrite tape i robot (encodeWrite uws pl po l o)) rest l o (i + 1)

/-- `SpaceTimeAStarPlanner.update_next_actions(path, robot_id,
update_wait_steps)`: writes tape rows `i` for
`0 ≤ i < min(len(path), replanning_period)`, starting from the robot's
current pose. -/
def updateNextActions (env : Env) (Rp : ℕ) (tape : List (List ℕ))
    (path : List (ℤ × ℤ)) (robot : ℕ) (uws : Bool) : List (List ℕ) :=
  updateActionsGo robot uws tape (path.take Rp)
    (stateOf env robot).location (stateOf env robot).orientation 0

/-- Read tape entry `(i, r)`; `none` when out of range. -/
def tapeGet (tape : List (List ℕ)) (i r : ℕ) : Option ℕ :=
  tape[i]?.bind (fun row => row[r]?)

/-! ### Single-agent space-time A* (`space_time_plan`) -/

/-- `(position, orientation, g, h)` — the `node_info` tuples of the
source. -/
abbrev NodeInfo := ℤ × ℤ × ℤ × ℤ

/-- An open-list entry `(f, h, 0, node_info)`, as pushed onto the
`PriorityQueue`. -/
abbrev AEntry := ℤ × ℤ × ℤ × NodeInfo

/-- The flattened components of an entry, for Python's lexicographic
tuple comparison. -/
def entryKey (a : AEntry) : List ℤ :=
  [a.1, a.2.1, a.2.2.1, a.2.2.2.1, a.2.2.2.2.1, a.2.2.2.2.2.1, a.2.2.2.2.2.2]

/-- Lexicographic comparison of equal-length integer lists, embedding
Python tuple comparison. -/
def listLexLE : List ℤ → List ℤ → Bool
  | [], _ => true
  | _ :: _, [] => false
  | x :: xs, y :: ys => if x < y then true else if x = y then listLexLE xs ys else false

/-- Python tuple order on open-list entries. -/
def entryLE (a b : AEntry) : Bool := listLexLE (entryKey a) (entryKey b)

/-- Remove a minimal entry from the open list (the `PriorityQueue.get`):
entries are totally ordered by `entryLE` (ties are only between
identical tuples, where the choice is irrelevant). -/
def popMin : List AEntry → Option (AEntry × List AEntry)
  | [] => none
  | e :: es =>
    match popMin es with
    | none => some (e, [])
    | some (m, rest) => if entryLE e m then some (e, es) else some (m, e :: rest)

/-- The path-reconstruction loop of `space_time_plan`: follow `parent`
from the goal node back to the start (whose parent entry is `None`),
then drop the start node and reverse.  A missing parent entry would be a
Python `KeyError`; the search inserts one for every pushed node. -/
def reconstructPath (parent : List ((ℤ × ℤ) × Option NodeInfo)) :
    ℕ → NodeInfo → List (ℤ × ℤ) → Option (List (ℤ × ℤ))
  | 0, _, _ => none
  | fuel + 1, info, acc =>
    let acc := acc ++ [(info.1, info.2.1)]
    match alistLookup parent (info.1 * 4 + info.2.1, info.2.2.1) with
    | none => none
    | some none => some acc.dropLast.reverse
    | some (some pinfo) => reconstructPath parent fuel pinfo acc

/-- The successor loop of `space_time_plan`: for each legal motion (and
waiting), skip it when the reservation table blocks it or when the
closed set already holds the successor key (the source's
re-encounter branch mutates a local tuple and discards it — dead code);
otherwise push `(g+1+h, h, 0, node)` and record the parent. -/
def expandNeighbors (env : Env) (hfun : ℤ → ℤ → ℤ → ℤ) (goal : ℤ) (robot : ℕ)
    (rt : RTable) (cur : NodeInfo) :
    List (ℤ × ℤ) → List AEntry → List ((ℤ × ℤ) × Option NodeInfo) → Finset (ℤ × ℤ) →
    List AEntry × List ((ℤ × ℤ) × Option NodeInfo)
  | [], opn, parent, _ => (opn, parent)
  | (nl, nd) :: ns, opn, parent, closed =>
    if isReserved rt cur.1 nl (cur.2.2.1 + 1) (some robot) then
      expandNeighbors env hfun goal robot rt cur ns opn parent closed
    else if (nl * 4 + nd, cur.2.2.1 + 1) ∈ closed then
      expandNeighbors env hfun goal robot rt cur ns opn parent closed
    else
      let nh := hfun nl nd goal
      expandNeighbors env hfun goal robot rt cur ns
        (opn ++ [(cur.2.2.1 + 1 + nh, nh, 0, (nl, nd, cur.2.2.1 + 1, nh))])
        (alistUpsert parent (nl * 4 + nd, cur.2.2.1 + 1) (some cur)) closed

/-- The main `while not open_list.empty()` loop of `space_time_plan`,
with fuel for the unbounded search (an unreachable goal makes the Python
loop run forever).  An exhausted open list returns the empty path. -/
def spaceTimePlanGo (env : Env) (hfun : ℤ → ℤ → ℤ → ℤ) (goal : ℤ) (robot : ℕ)
    (rt : RTable) :
    ℕ → List AEntry → Finset (ℤ × ℤ) → List ((ℤ × ℤ) × Option NodeInfo) →
    Option (List (ℤ × ℤ))
  | 0, _, _, _ => none
  | fuel + 1, opn, closed, parent =>
    match popMin opn with
    | none => some []
    | some ((_, _, _, info), rest) =>
      if (info.1 * 4 + info.2.1, info.2.2.1) ∈ closed then
        spaceTimePlanGo env hfun goal robot rt fuel rest closed parent
      else
        let closed2 := insert (info.1 * 4 + info.2.1, info.2.2.1) closed
        if info.1 = goal then
          reconstructPath parent (fuel + 1) info []
        else
          match expandNeighbors env hfun goal robot rt info
              (getNeighbors env info.1 info.2.1 ++ [(info.1, info.2.1)])
              rest parent closed2 with
          | (opn2, parent2) => spaceTimePlanGo env hfun goal robot rt fuel opn2 closed2 parent2

/-- `SpaceTimeAStarPlanner.space_time_plan(start, start_direct, end,
robot_id)`, parametrised by the heuristic `hfun` (the distance oracle
lives in the external `util` module) and by search fuel. -/
def spaceTimePlan (env : Env) (hfun : ℤ → ℤ → ℤ → ℤ) (fuel : ℕ)
    (start startDir goal : ℤ) (robot : ℕ) (rt : RTable) : Option (List (ℤ × ℤ)) :=
  spaceTimePlanGo env hfun goal robot rt fuel
    [(0 + hfun start startDir goal, hfun start startDir goal, 0,
      (start, startDir, 0, hfun start startDir goal))]
    ∅ [((start * 4 + startDir, 0), none)]

/-! ### Priority coordinator (`priority_planner`) -/

/-- The mutable planner state the coordinator methods touch: the
reservation table and the action tape `self.next_actions`. -/
structure PSt where
  rt : RTable
  tape : List (List ℕ)
deriving DecidableEq

/-- `if try_fix_stuck_robots and robot_id in try_fix_stuck_robots` —
Python truthiness: `None` and the empty list are falsy. -/
def tryFixHas (tryFix : Option (List ℕ)) (r : ℕ) : Bool :=
  match tryFix with
  | none => false
  | some l => decide (r ∈ l)

/-- One robot of `prereserve_cells_based_on_robot_positions`: reserve the
robot's own cell at t=1 when it faces an obstacle or another robot
(plus t=2, or t=2 and t=3, for robots in `try_fix_stuck_robots`). -/
def prereserveOne (env : Env) (tryFix : Option (List ℕ)) (rt : RTable) (r : ℕ) :
    RTable :=
  let pos := (stateOf env r).location
  let ori := (stateOf env r).orientation
  match getValidForwardsNeighborCell env pos ori with
  | none =>
    let rt1 := addResNS rt pos (-1) 1 r
    if tryFixHas tryFix r then addResNS rt1 pos (-1) 2 r else rt1
  | some cellFront =>
    if robotAt env cellFront then
      let rt1 := addResNS rt pos (-1) 1 r
      if tryFixHas tryFix r then addResNS (addResNS rt1 pos (-1) 2 r) pos (-1) 3 r
      else rt1
    else rt

/-- `prereserve_cells_based_on_robot_positions(try_fix_stuck_robots)`. -/
def prereserveAll (env : Env) (tryFix : Option (List ℕ)) (rt : RTable) : RTable :=
  (List.range env.numAgents).foldl (prereserveOne env tryFix) rt

/-- The loop of the goal-queue-empty branch of `priority_planner`:
`for step in range(self.time_horizon): add_reservation(loc, -1, step, r)`
— note the time steps are `0 … H-1`, not `1 … H`. -/
def emptyGoalReserve (H : ℕ) (rt : RTable) (loc : ℤ) (r : ℕ) : RTable :=
  (List.range H).foldl (fun acc step => addResNS acc loc (-1) (step : ℤ) r) rt

/-- The loop of `reserve_path_if_possible`: strict adds over
`time_step = 1 … H`, padding with the terminal path cell; on a
`ReservationConflict` revoke everything the robot holds and report
failure (the source re-raises; the caller catches). -/
def rppGo (H : ℕ) (path : List (ℤ × ℤ)) (r : ℕ) :
    ℕ → ℕ → RTable → ℤ → RTable × Bool
  | 0, _, rt, _ => (rt, true)
  | k + 1, step, rt, lastLoc =>
    let p := if step < path.length then path.getD step (0, 0) else path.getLastD (0, 0)
    match addReservation rt lastLoc p.1 ((step : ℤ) + 1) r true with
    | .error _ => ((revokeAll rt r).2, false)
    | .ok rt2 => rppGo H path r k (step + 1) rt2 p.1

/-- `SpaceTimeAStarPlanner.reserve_path_if_possible(last_loc, path,
robot_id)`; the `Bool` is `false` when the source raised (after revoking
all of the robot's reservations). -/
def reservePathIfPossible (H : ℕ) (rt : RTable) (lastLoc : ℤ)
    (path : List (ℤ × ℤ)) (r : ℕ) : RTable × Bool :=
  rppGo H path r H 0 rt lastLoc

/-- `handle_conflict`, by recursion on fuel (the source recursion is
unbounded; the development proves a sufficient fuel exists).  The outer
match reads `edge_hash_to_robot_id[(start, end, time_step)]`, revokes
the colliding robot and overwrites its tape rows with WAIT; `hcGo` then
walks `step = 0 … H-1` (again zero-based), recursing on any robot found
holding the stopped robot's cell before re-reserving it. -/
def handleConflictF (env : Env) (Rp H : ℕ) :
    ℕ → ℤ → ℤ → ℤ → PSt → Option (List ℕ × ℕ × PSt)
  | 0, _, _, _, _ => none
  | fuel + 1, s, e, t, st =>
    match dictLookup st.rt.owner (s, e, t) with
    | none => none
    | some c =>
      let rt1 := (revokeAll st.rt c).2
      let tape1 := (List.range Rp).foldl (fun tp step => setAct tp step c actW) st.tape
      hcGo (handleConflictF env Rp H fuel) (stateOf env c).location c H 0 ⟨rt1, tape1⟩ [c] 1
where
  /-- The `for step in range(self.time_horizon)` loop of
  `handle_conflict` for colliding robot `c` at cell `loc`. -/
  hcGo (hc : ℤ → ℤ → ℤ → PSt → Option (List ℕ × ℕ × PSt)) (loc : ℤ) (c : ℕ) :
      ℕ → ℕ → PSt → List ℕ → ℕ → Option (List ℕ × ℕ × PSt)
  | 0, _, st, ids, cnt => some (ids, cnt, st)
  | k + 1, step, st, ids, cnt =>
    if isReserved st.rt loc (-1) (step : ℤ) (some c) then
      match hc loc (-1) (step : ℤ) st with
      | none => none
      | some (nids, ncnt, st2) =>
        hcGo hc loc c k (step + 1)
          ⟨addResNS st2.rt loc (-1) (step : ℤ) c, st2.tape⟩ (ids ++ nids) (cnt + ncnt)
    else
      hcGo hc loc c k (step + 1)
        ⟨addResNS st.rt loc (-1) (step : ℤ) c, st.tape⟩ ids cnt

/-- Metrics accumulated across the robots of one `priority_planner`
call: `path_length_sum`, `waiting_robots`, `waiting_robot_ids` and the
local `collision_groups`. -/
structure PAcc where
  pls : ℕ
  waiting : ℕ
  waitingIds : List ℕ
  groups : List (List ℕ)
deriving DecidableEq

/-- The waiting loop of the no-path branch of `priority_planner`:
`for step in range(H)`, handling a conflict (and counting its stopped
robots) before reserving `(last_loc, -1, step+1)`. -/
def waitLoopGo (env : Env) (Rp H : ℕ) (hcFuel : ℕ) (r : ℕ) (lastLoc : ℤ) :
    ℕ → ℕ → PSt → PAcc → Option (PSt × PAcc)
  | 0, _, st, acc => some (st, acc)
  | k + 1, step, st, acc =>
    if isReserved st.rt lastLoc (-1) ((step : ℤ) + 1) (some r) then
      match handleConflictF env Rp H hcFuel lastLoc (-1) ((step : ℤ) + 1) st with
      | none => none
      | some (ids, cnt, st2) =>
        waitLoopGo env Rp H hcFuel r lastLoc k (step + 1)
          ⟨addResNS st2.rt lastLoc (-1) ((step : ℤ) + 1) r, st2.tape⟩
          ⟨acc.pls, acc.waiting + cnt, acc.waitingIds, acc.groups ++ [ids]⟩
    else
      waitLoopGo env Rp H hcFuel r lastLoc k (step + 1)
        ⟨addResNS st.rt lastLoc (-1) ((step : ℤ) + 1) r, st.tape⟩ acc

/-- The body of the per-robot loop of `priority_planner`, parametrised
by the single-agent planner `planFn` (instantiated with
`spaceTimePlan`). -/
def priorityStep (env : Env) (Rp H : ℕ)
    (planFn : RTable → ℕ → Option (List (ℤ × ℤ))) (hcFuel : ℕ)
    (st : PSt) (acc : PAcc) (r : ℕ) : Option (PSt × PAcc) :=
  if (goalsOf env r).isEmpty then
    some (⟨emptyGoalReserve H st.rt (stateOf env r).location r, st.tape⟩, acc)
  else
    match planFn st.rt r with
    | none => none
    | some path =>
      let lastLoc := (stateOf env r).location
      if path.isEmpty then
        waitLoopGo env Rp H hcFuel r lastLoc H 0 st
          ⟨acc.pls, acc.waiting + 1, acc.waitingIds ++ [r], acc.groups⟩
      else
        match reservePathIfPossible H st.rt lastLoc path r with
        | (rt2, true) =>
          some (⟨rt2, updateNextActions env Rp st.tape path r false⟩,
            ⟨acc.pls + path.length, acc.waiting, acc.waitingIds, acc.groups⟩)
        | (rt2, false) =>
          waitLoopGo env Rp H hcFuel r lastLoc H 0 ⟨rt2, st.tape⟩
            ⟨acc.pls, acc.waiting + 1, acc.waitingIds ++ [r], acc.groups⟩

/-- The `for robot_id in robot_order` fold of `priority_planner`. -/
def priorityFold (env : Env) (Rp H : ℕ)
    (planFn : RTable → ℕ → Option (List (ℤ × ℤ))) (hcFuel : ℕ) :
    List ℕ → PSt → PAcc → Option (PSt × PAcc)
  | [], st, acc => some (st, acc)
  | r :: rs, st, acc =>
    match priorityStep env Rp H planFn hcFuel st acc r with
    | none => none
    | some (st2, acc2) => priorityFold env Rp H planFn hcFuel rs st2 acc2

/-- What a coordinator call leaves behind: the returned first tape row
and metrics, plus the final `self.next_actions` and reservation table
(kept in `self` by the source) and the local `collision_groups`. -/
structure PRes where
  firstRow : List ℕ
  pls : ℕ
  waiting : ℕ
  waitingIds : List ℕ
  groups : List (List ℕ)
  tape : List (List ℕ)
  rt : RTable
deriving DecidableEq

/-- `SpaceTimeAStarPlanner.priority_planner(time_limit, robot_order,
try_fix_stuck_robots)` (`time_limit` is unused by the source method).
`robot_order or range(...)`: an empty order means all robots in id
order.  `none` only on fuel exhaustion of `handle_conflict` or of the
single-agent search. -/
def priorityPlanner (env : Env) (Rp H : ℕ)
    (planFn : RTable → ℕ → Option (List (ℤ × ℤ))) (hcFuel : ℕ)
    (order : List ℕ) (tryFix : Option (List ℕ)) : Option PRes :=
  let order := if order.isEmpty then List.range env.numAgents else order
  let tape0 : List (List ℕ) :=
    List.replicate Rp (List.replicate env.currStates.length actW)
  let rt1 := prereserveAll env tryFix ⟨∅, []⟩
  match priorityFold env Rp H planFn hcFuel order ⟨rt1, tape0⟩ ⟨0, 0, [], []⟩ with
  | none => none
  | some (st, acc) =>
    some ⟨st.tape.headD [], acc.pls, acc.waiting, acc.waitingIds, acc.groups,
      st.tape, st.rt⟩

/-- The `planFn` the source actually uses: `space_time_plan` from the
robot's current pose to its first goal. -/
def defaultPlanFn (env : Env) (hfun : ℤ → ℤ → ℤ → ℤ) (planFuel : ℕ) :
    RTable → ℕ → Option (List (ℤ × ℤ)) :=
  fun rt r =>
    spaceTimePlan env hfun planFuel (stateOf env r).location
      (stateOf env r).orientation ((goalsOf env r).headD (0, 0)).1 r rt

/-! ### Detour coordinator (`detour_planner`) -/

/-- The two phases of the detour loop (`models.DetourPlannerPhase`). -/
inductive DPhase
  | findPath
  | improve
deriving DecidableEq

/-- Per-robot bookkeeping of `detour_planner`: `path_lengths`,
`current_paths`, `waiting_robots`, `waiting_robot_ids`. -/
structure DAcc where
  pathLengths : List ℕ
  currPaths : List (Option (List (ℤ × ℤ)))
  waiting : ℕ
  waitingIds : List ℕ

/-- What `detour_planner` returns (plus the retained tape and table). -/
structure DRes where
  firstRow : List ℕ
  pls : ℕ
  waiting : ℕ
  waitingIds : List ℕ
  tape : List (List ℕ)
  rt : RTable

/-- The early-return value `(next_actions[0], sum(path_lengths), …)`. -/
def mkDRes (st : PSt) (acc : DAcc) : DRes :=
  ⟨st.tape.headD [], acc.pathLengths.sum, acc.waiting, acc.waitingIds, st.tape, st.rt⟩

/-- `reserve_waiting_positions_for_all_robots`: park every robot on its
own cell for `t = 1 … H` (here the source does use `step + 1`). -/
def reserveWaitingAll (env : Env) (H : ℕ) (rt : RTable) : RTable :=
  (List.range env.numAgents).foldl
    (fun a r =>
      (List.range H).foldl
        (fun b step => addResNS b (stateOf env r).location (-1) ((step : ℤ) + 1) r) a)
    rt

/-- The per-robot body of a detour sweep.  Reading
`env.goal_locations[r][0][0]` with an empty goal queue is a Python
`IndexError`, embedded as `none`; `none` also models search-fuel
exhaustion.  The third component is the `found_paths` increment. -/
def detourStep (env : Env) (Rp H : ℕ) (hfun : ℤ → ℤ → ℤ → ℤ) (planFuel : ℕ)
    (phase : DPhase) (st : PSt) (acc : DAcc) (r : ℕ) :
    Option (PSt × DAcc × ℕ) :=
  if phase = .findPath ∧ (acc.currPaths.getD r none).isSome then some (st, acc, 0)
  else
    match (goalsOf env r).head? with
    | none => none
    | some g =>
      match spaceTimePlan env hfun planFuel (stateOf env r).location
          (stateOf env r).orientation g.1 r st.rt with
      | none => none
      | some path =>
        if path.isEmpty then
          some (st, ⟨acc.pathLengths, acc.currPaths, acc.waiting + 1,
            acc.waitingIds ++ [r]⟩, 0)
        else
          let better : Bool :=
            match acc.currPaths.getD r none with
            | none => true
            | some cp => decide (path.length < cp.length)
          if phase = .improve ∧ better = false then
            some (st, acc, 0)
          else
            match revokeAll st.rt r with
            | (revoked, rt1) =>
              let lastLoc := (stateOf env r).location
              match reservePathIfPossible H rt1 lastLoc path r with
              | (rt2, true) =>
                some (⟨rt2, updateNextActions env Rp st.tape path r true⟩,
                  ⟨acc.pathLengths.set r path.length,
                    acc.currPaths.set r (some path), acc.waiting, acc.waitingIds⟩, 1)
              | (rt2, false) =>
                let rt3 := revoked.foldl
                  (fun a k => addResNS a k.1 k.2.1 k.2.2 r) rt2
                some (⟨rt3, st.tape⟩,
                  ⟨acc.pathLengths, acc.currPaths, acc.waiting + 1,
                    acc.waitingIds ++ [r]⟩, 0)

/-- One sweep of the detour loop over `order`; `tlFires n` embeds the
truth value of `time_limit and time.time() - start_time >= time_limit`
at the n-th check (constantly false when no time limit is set). -/
def detourSweep (env : Env) (Rp H : ℕ) (hfun : ℤ → ℤ → ℤ → ℤ) (planFuel : ℕ)
    (tlFires : ℕ → Bool) (phase : DPhase) :
    List ℕ → ℕ → PSt → DAcc → ℕ → Option (Sum DRes (PSt × DAcc × ℕ × ℕ))
  | [], n, st, acc, found => some (.inr (st, acc, found, n))
  | r :: rs, n, st, acc, found =>
    if tlFires n then some (.inl (mkDRes st acc))
    else
      match detourStep env Rp H hfun planFuel phase st acc r with
      | none => none
      | some (st2, acc2, inc) =>
        detourSweep env Rp H hfun planFuel tlFires phase rs (n + 1) st2 acc2 (found + inc)

/-- The outer `while True` of `detour_planner`: sweeps until a
`FIND_PATH` sweep finds nothing (switch to `IMPROVE`), then until an
`IMPROVE` sweep replaces nothing. -/
def detourLoop (env : Env) (Rp H : ℕ) (hfun : ℤ → ℤ → ℤ → ℤ) (planFuel : ℕ)
    (tlFires : ℕ → Bool) (order : List ℕ) :
    ℕ → DPhase → ℕ → PSt → DAcc → Option DRes
  | 0, _, _, _, _ => none
  | fuel + 1, phase, n, st, acc =>
    match detourSweep env Rp H hfun planFuel tlFires phase order n st acc 0 with
    | none => none
    | some (.inl res) => some res
    | some (.inr (st2, acc2, found, n2)) =>
      match phase, found with
      | .findPath, 0 => detourLoop env Rp H hfun planFuel tlFires order fuel .improve n2 st2 acc2
      | .improve, 0 => some (mkDRes st2 acc2)
      | _, _ => detourLoop env Rp H hfun planFuel tlFires order fuel phase n2 st2 acc2

/-- `SpaceTimeAStarPlanner.detour_planner(time_limit, robot_order)`. -/
def detourPlanner (env : Env) (Rp H : ℕ) (hfun : ℤ → ℤ → ℤ → ℤ) (planFuel : ℕ)
    (tlFires : ℕ → Bool) (order : List ℕ) (loopFuel : ℕ) : Option DRes :=
  let order := if order.isEmpty then List.range env.numAgents else order
  let tape0 : List (List ℕ) :=
    List.replicate Rp (List.replicate env.currStates.length actW)
  let rt1 := reserveWaitingAll env H ⟨∅, []⟩
  detourLoop env Rp H hfun planFuel tlFires order loopFuel .findPath 0 ⟨rt1, tape0⟩
    ⟨List.replicate env.numAgents 0, List.replicate env.numAgents none, 0, []⟩

/-! ### Restart driver (`plan` / `plan_with_random_restarts`)

The driver is embedded relative to three abstract collaborators: the
low-level coordinator dispatch (`call_low_level_planner`, a function of
the iteration count and the priority order), the fix-step call
(`priority_planner` with `try_fix_stuck_robots`), and the
fresh-permutation draw (the inner `while True` shuffle loop, whose
faithful instance `innerDraw` is defined below).  Wall-clock readings
come from an explicit stream `clock : ℕ → ℚ`, indexed by how many times
`time.time()` has been called. -/

/-- What a low-level coordinator call hands back to the driver: the new
`self.next_actions` tape, the path-length sum, and the waiting count and
ids. -/
structure LLOut where
  tape : List (List ℕ)
  pls : ℕ
  waiting : ℕ
  waitingIds : List ℕ

/-- The loop state of `plan_with_random_restarts`. -/
structure RLSt where
  iter : ℤ
  tried : List (List ℕ)
  order : List ℕ
  lastFix : Bool
  ptimes : List ℚ
  rs : ℕ
  clk : ℕ
  startTime : ℚ
  best : List (List ℕ)
  minWaiting : ℕ
  minPls : ℕ
  tape : List (List ℕ)
  stuckIds : List ℕ

/-- `deque(maxlen=10)` append: keep the last ten entries. -/
def dqAppend (l : List ℚ) (x : ℚ) : List ℚ :=
  let l2 := l ++ [x]
  if 10 < l2.length then l2.drop (l2.length - 10) else l2

/-- `max(self.processing_times)` (only read on a nonempty deque). -/
def listMax (l : List ℚ) : ℚ := l.foldl max (l.headD 0)

/-- The budget guard
`time_limit and len(pt) > 0 and (time.time() - start) + max(pt) * factor >= time_limit`:
Python short-circuiting means the clock is read only when a positive
time limit is set and the deque is nonempty.  Returns the truth value
and the new clock counter. -/
def tlGuard (TL : Option ℚ) (clock : ℕ → ℚ) (st : RLSt) (mf : ℚ) : Bool × ℕ :=
  match TL with
  | none => (false, st.clk)
  | some t =>
    if t = 0 then (false, st.clk)
    else if st.ptimes.length = 0 then (false, st.clk)
    else (decide (t ≤ (clock st.clk - st.startTime) + listMax st.ptimes * mf), st.clk + 1)

/-- The restart-count guard
`number_of_restarts and iteration_count > number_of_restarts` (`0` is
falsy, so a configured restart count of 1 never breaks). -/
def nrBreak (NR : Option ℤ) (iter : ℤ) : Bool :=
  match NR with
  | none => false
  | some m => decide (¬ m = 0) && decide (m < iter)

/-- The best-so-far update: strictly fewer waiting robots, or equally
many with a strictly smaller path-length sum, replaces the kept tape
(`best_next_actions = copy(self.next_actions)`). -/
def updateBest (st : RLSt) (out : LLOut) : RLSt :=
  if out.waiting < st.minWaiting ∨ (out.waiting = st.minWaiting ∧ out.pls < st.minPls) then
    { st with minWaiting := out.waiting, minPls := out.pls, best := st.tape }
  else st

/-- Leaving the loop: `self.next_actions = best_next_actions` and
`next = self.next_actions.pop(0)` (popping an empty tape would be a
Python `IndexError`, embedded as `none`). -/
def rlFin (st : RLSt) : Option (List ℕ × List (List ℕ)) :=
  match st.best with
  | [] => none
  | row :: rest => some (row, rest)

/-- The `while True` loop of `plan_with_random_restarts`: bump the
iteration count, test the two exit guards, then either run a fix-step
(not counted, never twice in a row) or draw a fresh permutation and call
the low-level planner, timing it and keeping the best tape. -/
def restartLoop (TL : Option ℚ) (NR : Option ℤ) (tryFixFlag : Bool) (mf : ℚ)
    (lowLevel : ℤ → List ℕ → LLOut) (fixFn : List ℕ → List ℕ → LLOut)
    (draw : List ℕ → List (List ℕ) → ℕ → Option (List ℕ × ℕ))
    (clock : ℕ → ℚ) :
    ℕ → RLSt → Option (List ℕ × List (List ℕ))
  | 0, _ => none
  | fuel + 1, st0 =>
    let st := { st0 with iter := st0.iter + 1 }
    match tlGuard TL clock st mf with
    | (true, clk2) => rlFin { st with clk := clk2 }
    | (false, clk2) =>
      let st := { st with clk := clk2 }
      if nrBreak NR st.iter then rlFin st
      else
        if tryFixFlag && !st.lastFix then
          let st := { st with iter := st.iter - 1 }
          let out := fixFn st.order st.stuckIds
          restartLoop TL NR tryFixFlag mf lowLevel fixFn draw clock fuel
            (updateBest
              { st with tape := out.tape, stuckIds := out.waitingIds, lastFix := true }
              out)
        else
          match draw st.order st.tried st.rs with
          | none => none
          | some (newOrder, rs2) =>
            let out := lowLevel st.iter newOrder
            let pt := clock (st.clk + 1) - clock st.clk
            restartLoop TL NR tryFixFlag mf lowLevel fixFn draw clock fuel
              (updateBest
                { st with
                  order := newOrder
                  tried := newOrder :: st.tried
                  rs := rs2
                  clk := st.clk + 2
                  ptimes := dqAppend st.ptimes pt
                  tape := out.tape
                  stuckIds := out.waitingIds
                  lastFix := false }
                out)

/-- The faithful inner `while True` draw: shuffle the current order until
the result is not in `tried_priority_orders` (this loop never exits once
every permutation has been tried — with a single robot it never exits at
all). -/
def innerDraw (shuffle : List ℕ → ℕ → List ℕ × ℕ) :
    ℕ → List ℕ → List (List ℕ) → ℕ → Option (List ℕ × ℕ)
  | 0, _, _, _ => none
  | fuel + 1, base, tried, rs =>
    match shuffle base rs with
    | (cand, rs2) =>
      if cand ∈ tried then innerDraw shuffle fuel base tried rs2 else some (cand, rs2)

/-- `SpaceTimeAStarPlanner.plan_with_random_restarts(time_limit)`: the
initial coordinator call on the identity (or pre-shuffled) permutation,
the `self.random_restarts` early return, and the restart loop.  The
clock is read once for `start` and twice around every timed coordinator
call; the first call's processing time is measured but never appended. -/
def planWithRandomRestarts (restarts : Bool) (TL : Option ℚ)
    (restartCount : Option ℤ) (tryFixFlag : Bool) (mf : ℚ)
    (lowLevel : ℤ → List ℕ → LLOut) (fixFn : List ℕ → List ℕ → LLOut)
    (draw : List ℕ → List (List ℕ) → ℕ → Option (List ℕ × ℕ))
    (clock : ℕ → ℚ) (order0 : List ℕ) (rs0 : ℕ) (loopFuel : ℕ) :
    Option (List ℕ × List (List ℕ)) :=
  let out0 := lowLevel 0 order0
  if restarts = false then
    match out0.tape with
    | [] => none
    | row :: rest => some (row, rest)
  else
    restartLoop TL (restartCount.map (fun c => c - 1)) tryFixFlag mf
      lowLevel fixFn draw clock loopFuel
      { iter := 0
        tried := [order0]
        order := order0
        lastFix := false
        ptimes := []
        rs := rs0
        clk := 3
        startTime := clock 0
        best := out0.tape
        minWaiting := out0.waiting
        minPls := out0.pls
        tape := out0.tape
        stuckIds := out0.waitingIds }

/-- Two driver-loop states that agree on everything except the
clock-derived fields (`processing_times`, the clock read counter, and
`start`): the relation preserved when only the wall clock differs. -/
def RLRel (s1 s2 : RLSt) : Prop :=
  s1.iter = s2.iter ∧ s1.tried = s2.tried ∧ s1.order = s2.order ∧
  s1.lastFix = s2.lastFix ∧ s1.rs = s2.rs ∧ s1.best = s2.best ∧
  s1.minWaiting = s2.minWaiting ∧ s1.minPls = s2.minPls ∧
  s1.tape = s2.tape ∧ s1.stuckIds = s2.stuckIds

/-- `SpaceTimeAStarPlanner.plan(time_limit)`: map the C++ no-limit
sentinel `2147483647` to `None`, then either replan (when
`last_planning_step + replanning_period <= curr_timestep`; the initial
`last_planning_step` is `-inf`, embedded as `none`) or pop the next
stored row. -/
def planEntry (timeLimit : ℤ) (Rp : ℕ) (lastPlan : Option ℤ) (curr : ℤ)
    (storedTape : List (List ℕ))
    (restarts : Bool) (restartCount : Option ℤ) (tryFixFlag : Bool) (mf : ℚ)
    (lowLevel : ℤ → List ℕ → LLOut) (fixFn : List ℕ → List ℕ → LLOut)
    (draw : List ℕ → List (List ℕ) → ℕ → Option (List ℕ × ℕ))
    (clock : ℕ → ℚ) (order0 : List ℕ) (rs0 : ℕ) (loopFuel : ℕ) :
    Option (List ℕ × List (List ℕ)) :=
  let TL : Option ℚ := if timeLimit = 2147483647 then none else some (timeLimit : ℚ)
  let needReplan : Bool :=
    match lastPlan with
    | none => true
    | some lp => decide (lp + (Rp : ℤ) ≤ curr)
  if needReplan then
    planWithRandomRestarts restarts TL restartCount tryFixFlag mf lowLevel fixFn
      draw clock order0 rs0 loopFuel
  else
    match storedTape with
    | [] => none
    | row :: rest => some (row, rest)

/-- The reservation set and the ownership dict are in sync: the set is
exactly the dict's key set, and the dict has no duplicate keys (Python
dicts cannot). All tables the planner builds satisfy this. -/
def SyncInv (rt : RTable) : Prop :=
  (∀ k : RKey, k ∈ rt.reservation ↔ (dictLookup rt.owner k).isSome) ∧
  (rt.owner.map Prod.fst).Nodup

instance (rt : RTable) : Decidable (SyncInv rt) :=
  decidable_of_iff
    (rt.reservation = rt.owner.foldr (fun p s => insert p.1 s) ∅ ∧
      (rt.owner.map Prod.fst).Nodup)
    (by
      have hmem : ∀ (m : List (RKey × ℕ)) (k : RKey),
          (dictLookup m k).isSome ↔
            k ∈ m.foldr (fun p s => insert p.1 s) (∅ : Finset RKey) := by
        intro m
        induction m with
        | nil => intro k; simp [dictLookup]
        | cons p rest ih =>
          intro k
          obtain ⟨pk, pv⟩ := p
          by_cases hk : pk = k
          · subst hk; simp [dictLookup]
          · simp [dictLookup, hk, ih k]
            exact fun hc => absurd hc.symm hk
      unfold SyncInv
      constructor
      · rintro ⟨hset, hnd⟩
        refine ⟨fun k => ?_, hnd⟩
        rw [hset, hmem]
      · rintro ⟨hdom, hnd⟩
        refine ⟨?_, hnd⟩
        ext k
        rw [hdom k, hmem])

/-- The shape of every key either coordinator ever stores: a cell hash
`(cell, -1, t)` with a nonnegative cell index, or an edge hash
`(from, to, t)` with nonnegative, distinct endpoints. -/
def KeyShape (k : RKey) : Prop :=
  (k.2.1 = -1 ∧ 0 ≤ k.1) ∨ (0 ≤ k.1 ∧ 0 ≤ k.2.1 ∧ ¬ k.1 = k.2.1)

instance (k : RKey) : Decidable (KeyShape k) := by
  unfold KeyShape; infer_instance

/-- The reservation-table invariant maintained throughout one
coordinator call: the set/dict sync of `SyncInv`, owners are valid robot
ids, and every stored key is well-shaped. -/
def TableInv (env : Env) (rt : RTable) : Prop :=
  SyncInv rt ∧ ∀ p ∈ rt.owner, p.2 < env.numAgents ∧ KeyShape p.1

/-- All robots stand on pairwise-distinct cells — the precondition of
the conflict-propagation termination argument. -/
def DistinctLocs (env : Env) : Prop :=
  ∀ i j : ℕ, i < env.numAgents → j < env.numAgents → ¬ i = j →
    ¬ (stateOf env i).location = (stateOf env j).location

/-- Robot locations are real cell indices (nonnegative). -/
def LocsInRange (env : Env) : Prop :=
  ∀ i : ℕ, i < env.numAgents → 0 ≤ (stateOf env i).location

/-- Robot `x` holds only hold-in-place reservations: every dict entry it
owns is a cell hash at its own current cell.  Robots before their turn
in the priority order, and robots already stopped by `handle_conflict`,
are in this state. -/
def OwnCellOnly (env : Env) (rt : RTable) (x : ℕ) : Prop :=
  ∀ k : RKey, dictLookup rt.owner k = some x →
    k.2.1 = -1 ∧ k.1 = (stateOf env x).location

/-- The robots holding a cell reservation away from their own current
cell — exactly the robots `handle_conflict` can still stop.  The
cascade's recursion measure. -/
def foreignRobots (env : Env) (rt : RTable) : Finset ℕ :=
  (Finset.range env.numAgents).filter fun x =>
    ∃ p ∈ rt.owner, p.2 = x ∧ p.1.2.1 = -1 ∧ ¬ p.1.1 = (stateOf env x).location

/-- The contract of one `handle_conflict` call stopping target `C`,
taking table `pre` to `post` with stopped-robot list `ids`: the table
invariant is preserved; the stopped robots are pairwise distinct foreign
robots of `pre` including the target; every stopped robot ends holding
only its own cell; no robot foreign in `post` was stopped; and the
entries of unstopped robots are exactly preserved. -/
def HCPost (env : Env) (pre : RTable) (C : ℕ) (ids : List ℕ) (post : RTable) : Prop :=
  TableInv env post ∧
  ids.Nodup ∧
  C ∈ ids ∧
  (∀ x ∈ ids, x ∈ foreignRobots env pre) ∧
  (∀ x ∈ foreignRobots env post, x ∈ foreignRobots env pre ∧ x ∉ ids) ∧
  (∀ x ∈ ids, OwnCellOnly env post x) ∧
  (∀ k x, x ∉ ids →
    (dictLookup post.owner k = some x ↔ dictLookup pre.owner k = some x))

/-! ### Dictionary lemmas -/

theorem dictLookup_upsert (m : List (RKey × ℕ)) (k k' : RKey) (v : ℕ) :
    dictLookup (dictUpsert m k v) k' = if k = k' then some v else dictLookup m k' := by
  induction m with
  | nil => by_cases h : k = k' <;> simp [dictUpsert, dictLookup, h]
  | cons p rest ih =>
    obtain ⟨pk, pv⟩ := p
    by_cases hpk : pk = k
    · subst hpk
      by_cases h : pk = k' <;> simp [dictUpsert, dictLookup, h]
    · by_cases h : pk = k'
      · subst h
        have hkk : ¬ k = pk := fun hc => hpk hc.symm
        simp [dictUpsert, dictLookup, hpk, hkk]
      · simp [dictUpsert, dictLookup, hpk, h, ih]

theorem dictLookup_eq_none_of_not_mem (m : List (RKey × ℕ)) (k : RKey)
    (h : k ∉ m.map Prod.fst) : dictLookup m k = none := by
  induction m with
  | nil => simp [dictLookup]
  | cons p rest ih =>
    obtain ⟨pk, pv⟩ := p
    simp only [List.map_cons, List.mem_cons] at h
    push_neg at h
    have hpk : ¬ pk = k := fun hc => h.1 hc.symm
    simp [dictLookup, hpk, ih h.2]

theorem mem_map_fst_removeOwned (m : List (RKey × ℕ)) (r : ℕ) (k : RKey)
    (h : k ∈ (removeOwned m r).map Prod.fst) : k ∈ m.map Prod.fst := by
  induction m with
  | nil => simp [removeOwned] at h
  | cons p rest ih =>
    obtain ⟨pk, pv⟩ := p
    by_cases hv : pv = r
    · simp only [removeOwned, hv, if_pos rfl] at h
      exact List.mem_cons_of_mem _ (ih h)
    · simp only [removeOwned, if_neg hv, List.map_cons, List.mem_cons] at h
      rcases h with h | h
      · simp [h]
      · exact List.mem_cons_of_mem _ (ih h)

theorem dictLookup_removeOwned (m : List (RKey × ℕ)) (r : ℕ) (k : RKey)
    (hnd : (m.map Prod.fst).Nodup) :
    dictLookup (removeOwned m r) k =
      match dictLookup m k with
      | some v => if v = r then none else some v
      | none => none := by
  induction m with
  | nil => simp [removeOwned, dictLookup]
  | cons p rest ih =>
    obtain ⟨pk, pv⟩ := p
    simp only [List.map_cons, List.nodup_cons] at hnd
    by_cases hv : pv = r
    · by_cases hk : pk = k
      · subst hk
        have hnone : dictLookup (removeOwned rest r) pk = none := by
          apply dictLookup_eq_none_of_not_mem
          exact fun hmem => hnd.1 (mem_map_fst_removeOwned rest r pk hmem)
        simp [removeOwned, dictLookup, hv, hnone, ih hnd.2]
      · simp [removeOwned, dictLookup, hk, hv, ih hnd.2]
    · by_cases hk : pk = k
      · subst hk
        simp [removeOwned, dictLookup, hv]
      · simp [removeOwned, dictLookup, hk, hv, ih hnd.2]

theorem mem_ownedKeys_iff (m : List (RKey × ℕ)) (r : ℕ) (k : RKey)
    (hnd : (m.map Prod.fst).Nodup) :
    k ∈ ownedKeys m r ↔ dictLookup m k = some r := by
  induction m with
  | nil => simp [ownedKeys, dictLookup]
  | cons p rest ih =>
    obtain ⟨pk, pv⟩ := p
    simp only [List.map_cons, List.nodup_cons] at hnd
    by_cases hk : pk = k
    · subst hk
      have htail : dictLookup rest pk = none :=
        dictLookup_eq_none_of_not_mem rest pk hnd.1
      by_cases hv : pv = r
      · subst hv
        have : pk ∉ ownedKeys rest pv := by
          intro hmem
          have := (ih hnd.2).mp hmem
          rw [htail] at this
          exact Option.noConfusion this
        simp [ownedKeys, dictLookup]
      · have : pk ∉ ownedKeys rest r := by
          intro hmem
          have := (ih hnd.2).mp hmem
          rw [htail] at this
          exact Option.noConfusion this
        simp [ownedKeys, dictLookup, hv, this]
    · have hk' : ¬ pk = k := hk
      by_cases hv : pv = r <;>
        simp [ownedKeys, dictLookup, hv, hk', ih hnd.2]
      exact fun hc => (hk' hc.symm).elim

theorem mem_foldl_erase (l : List RKey) (s : Finset RKey) (k : RKey) :
    k ∈ l.foldl (fun s k => s.erase k) s ↔ k ∈ s ∧ k ∉ l := by
  induction l generalizing s with
  | nil => simp
  | cons a rest ih =>
    simp only [List.foldl_cons, ih, Finset.mem_erase, List.mem_cons]
    constructor
    · rintro ⟨⟨hne, hs⟩, hrest⟩
      exact ⟨hs, by push_neg; exact ⟨hne, hrest⟩⟩
    · rintro ⟨hs, h⟩
      push_neg at h
      exact ⟨⟨h.1, hs⟩, h.2⟩

theorem dictLookup_isSome_iff (m : List (RKey × ℕ)) (k : RKey) :
    (dictLookup m k).isSome ↔ k ∈ m.map Prod.fst := by
  induction m with
  | nil => simp [dictLookup]
  | cons p rest ih =>
    obtain ⟨pk, pv⟩ := p
    by_cases hk : pk = k
    · subst hk; simp [dictLookup]
    · have hk2 : ¬ k = pk := fun hc => hk hc.symm
      simp [dictLookup, hk, hk2, ih]

theorem dictUpsert_cons_self (pk : RKey) (pv v : ℕ) (rest : List (RKey × ℕ)) :
    dictUpsert ((pk, pv) :: rest) pk v = (pk, v) :: rest := by
  simp [dictUpsert]

theorem dictUpsert_cons_ne (pk k : RKey) (pv v : ℕ) (rest : List (RKey × ℕ))
    (h : ¬ pk = k) :
    dictUpsert ((pk, pv) :: rest) k v = (pk, pv) :: dictUpsert rest k v := by
  simp [dictUpsert, h]

theorem mem_map_fst_upsert (m : List (RKey × ℕ)) (k k' : RKey) (v : ℕ) :
    k' ∈ (dictUpsert m k v).map Prod.fst ↔ k' = k ∨ k' ∈ m.map Prod.fst := by
  induction m with
  | nil => simp [dictUpsert]
  | cons p rest ih =>
    obtain ⟨pk, pv⟩ := p
    by_cases hpk : pk = k
    · subst hpk
      rw [dictUpsert_cons_self]
      simp only [List.map_cons, List.mem_cons]
      tauto
    · rw [dictUpsert_cons_ne _ _ _ _ _ hpk]
      simp only [List.map_cons, List.mem_cons, ih]
      tauto

theorem nodup_map_fst_upsert (m : List (RKey × ℕ)) (k : RKey) (v : ℕ)
    (hnd : (m.map Prod.fst).Nodup) : ((dictUpsert m k v).map Prod.fst).Nodup := by
  induction m with
  | nil => simp [dictUpsert]
  | cons p rest ih =>
    obtain ⟨pk, pv⟩ := p
    simp only [List.map_cons, List.nodup_cons] at hnd
    by_cases hpk : pk = k
    · subst hpk
      rw [dictUpsert_cons_self]
      simp only [List.map_cons, List.nodup_cons]
      exact ⟨hnd.1, hnd.2⟩
    · rw [dictUpsert_cons_ne _ _ _ _ _ hpk]
      simp only [List.map_cons, List.nodup_cons]
      refine ⟨?_, ih hnd.2⟩
      intro hmem
      rcases (mem_map_fst_upsert rest k pk v).mp hmem with h | h
      · exact hpk h
      · exact hnd.1 h

theorem nodup_map_fst_removeOwned (m : List (RKey × ℕ)) (r : ℕ)
    (hnd : (m.map Prod.fst).Nodup) : ((removeOwned m r).map Prod.fst).Nodup := by
  induction m with
  | nil => simp [removeOwned]
  | cons p rest ih =>
    obtain ⟨pk, pv⟩ := p
    simp only [List.map_cons, List.nodup_cons] at hnd
    by_cases hv : pv = r
    · simp only [removeOwned, if_pos hv]
      exact ih hnd.2
    · simp only [removeOwned, if_neg hv, List.map_cons, List.nodup_cons]
      exact ⟨fun hmem => hnd.1 (mem_map_fst_removeOwned rest r pk hmem), ih hnd.2⟩

theorem dictLookup_cons_self (pk : RKey) (pv : ℕ) (rest : List (RKey × ℕ)) :
    dictLookup ((pk, pv) :: rest) pk = some pv := by
  simp [dictLookup]

theorem dictLookup_cons_ne (pk k : RKey) (pv : ℕ) (rest : List (RKey × ℕ))
    (h : ¬ pk = k) : dictLookup ((pk, pv) :: rest) k = dictLookup rest k := by
  simp [dictLookup, h]

theorem dictUpsert_self (m : List (RKey × ℕ)) (k : RKey) (v : ℕ)
    (h : dictLookup m k = some v) : dictUpsert m k v = m := by
  induction m with
  | nil => simp [dictLookup] at h
  | cons p rest ih =>
    obtain ⟨pk, pv⟩ := p
    by_cases hpk : pk = k
    · subst hpk
      rw [dictLookup_cons_self] at h
      obtain rfl : pv = v := by injection h
      rw [dictUpsert_cons_self]
    · rw [dictLookup_cons_ne _ _ _ _ hpk] at h
      rw [dictUpsert_cons_ne _ _ _ _ _ hpk, ih h]

/-! ### The sync invariant between the reservation set and the owner dict -/

theorem mem_foldr_insert_fst (m : List (RKey × ℕ)) (k : RKey) :
    k ∈ m.foldr (fun p s => insert p.1 s) (∅ : Finset RKey) ↔ k ∈ m.map Prod.fst := by
  induction m with
  | nil => simp
  | cons p rest ih => simp [ih]

theorem syncInv_iff (rt : RTable) :
    SyncInv rt ↔
      (rt.reservation = rt.owner.foldr (fun p s => insert p.1 s) ∅ ∧
        (rt.owner.map Prod.fst).Nodup) := by
  unfold SyncInv
  constructor
  · rintro ⟨hdom, hnd⟩
    refine ⟨?_, hnd⟩
    ext k
    rw [hdom k, dictLookup_isSome_iff, mem_foldr_insert_fst]
  · rintro ⟨hset, hnd⟩
    refine ⟨?_, hnd⟩
    intro k
    rw [hset, dictLookup_isSome_iff, mem_foldr_insert_fst]

theorem addResCore_eq_pos (rt : RTable) (s e t : ℤ) (r : ℕ) (h : ¬ s = e) :
    addResCore rt s e t r =
      ⟨insert (s, e, t) (insert (e, -1, t) rt.reservation),
        dictUpsert (dictUpsert rt.owner (e, -1, t) r) (s, e, t) r⟩ := by
  rw [addResCore, if_pos h]

theorem addResCore_eq_neg (rt : RTable) (s e t : ℤ) (r : ℕ) (h : s = e) :
    addResCore rt s e t r =
      ⟨insert (e, -1, t) rt.reservation, dictUpsert rt.owner (e, -1, t) r⟩ := by
  rw [addResCore, if_neg (not_not_intro h)]

theorem addResCore_reservation (rt : RTable) (s e t : ℤ) (r : ℕ) :
    (addResCore rt s e t r).reservation =
      if s ≠ e then insert (s, e, t) (insert (e, -1, t) rt.reservation)
      else insert (e, -1, t) rt.reservation := by
  by_cases h : s = e
  · rw [addResCore_eq_neg _ _ _ _ _ h, if_neg (not_not_intro h)]
  · rw [addResCore_eq_pos _ _ _ _ _ h, if_pos h]

theorem addResCore_owner_lookup (rt : RTable) (s e t : ℤ) (r : ℕ) (k : RKey) :
    dictLookup (addResCore rt s e t r).owner k =
      if ¬ s = e ∧ k = (s, e, t) then some r
      else if k = (e, -1, t) then some r
      else dictLookup rt.owner k := by
  by_cases h : s = e
  · rw [addResCore_eq_neg _ _ _ _ _ h]
    show dictLookup (dictUpsert rt.owner (e, -1, t) r) k = _
    rw [dictLookup_upsert]
    by_cases hk : k = (e, -1, t)
    · simp [hk, h]
    · have hne : ¬ (e, -1, t) = k := fun hc => hk hc.symm
      simp [hk, hne, h]
  · rw [addResCore_eq_pos _ _ _ _ _ h]
    show dictLookup (dictUpsert (dictUpsert rt.owner (e, -1, t) r) (s, e, t) r) k = _
    rw [dictLookup_upsert, dictLookup_upsert]
    by_cases hk1 : k = (s, e, t)
    · simp [hk1, h]
    · have hk1n : ¬ (s, e, t) = k := fun hc => hk1 hc.symm
      by_cases hk2 : k = (e, -1, t)
      · have hk2y : (e, -1, t) = k := hk2.symm
        simp [hk1, hk1n, hk2y, h]
      · have hk2n : ¬ (e, -1, t) = k := fun hc => hk2 hc.symm
        simp [hk1, hk1n, hk2, hk2n, h]

theorem addResCore_SyncInv (rt : RTable) (s e t : ℤ) (r : ℕ)
    (h : SyncInv rt) : SyncInv (addResCore rt s e t r) := by
  obtain ⟨hdom, hnd⟩ := h
  constructor
  · intro k
    rw [addResCore_reservation, addResCore_owner_lookup]
    by_cases hse : s = e
    · rw [if_neg (not_not_intro hse)]
      by_cases hk : k = (e, -1, t) <;>
        simp [hse, hk, hdom k, Finset.mem_insert]
    · rw [if_pos hse]
      by_cases hk1 : k = (s, e, t)
      · simp [hk1, hse]
      · by_cases hk2 : k = (e, -1, t) <;>
          simp [hk1, hk2, hse, hdom k, Finset.mem_insert]
  · by_cases hse : s = e
    · rw [addResCore_eq_neg _ _ _ _ _ hse]
      exact nodup_map_fst_upsert _ _ _ hnd
    · rw [addResCore_eq_pos _ _ _ _ _ hse]
      exact nodup_map_fst_upsert _ _ _ (nodup_map_fst_upsert _ _ _ hnd)

theorem revokeAll_SyncInv (rt : RTable) (r : ℕ) (h : SyncInv rt) :
    SyncInv (revokeAll rt r).2 := by
  obtain ⟨hdom, hnd⟩ := h
  constructor
  · intro k
    simp only [revokeAll, mem_foldl_erase, mem_ownedKeys_iff _ _ _ hnd]
    rw [dictLookup_removeOwned _ _ _ hnd]
    rcases hlk : dictLookup rt.owner k with _ | v
    · simp [hdom k, hlk]
    · by_cases hv : v = r <;> simp [hdom k, hlk, hv]
  · exact nodup_map_fst_removeOwned _ _ hnd

/-! ### Reservation-table claim theorems -/

theorem addReservation_eq_of_ne (rt : RTable) (a b t : ℤ) (r : ℕ)
    (hbne : ¬ b = -1) :
    addReservation rt a b t r true =
      (if (b, -1, t) ∈ rt.reservation then
        match dictLookup rt.owner (b, -1, t) with
        | none => .error .keyError
        | some o =>
          if o ≠ r then .error .conflict else .ok (addResCore rt a b t r)
      else .ok (addResCore rt a b t r)) := by
  unfold addReservation
  simp only [if_neg hbne, debug_mode, Bool.false_or]
  by_cases hmem : (b, -1, t) ∈ rt.reservation
  · simp [hmem]
  · simp [hmem]

theorem addReservation_ok_state (rt : RTable) (a b t : ℤ) (r : ℕ) (fail : Bool)
    (rt' : RTable) (h : addReservation rt a b t r fail = .ok rt') :
    rt' = addResCore rt a (if b = -1 then a else b) t r := by
  unfold addReservation at h
  by_cases hc : ((debug_mode || fail) &&
      decide ((if b = -1 then a else b, -1, t) ∈ rt.reservation)) = true
  · rw [if_pos hc] at h
    rcases hlk : dictLookup rt.owner (if b = -1 then a else b, -1, t) with _ | o
    · rw [hlk] at h
      exact absurd h (by simp)
    · rw [hlk] at h
      have h2 : (if o ≠ r then (Except.error ResError.conflict : Except ResError RTable)
          else Except.ok (addResCore rt a (if b = -1 then a else b) t r)) =
          Except.ok rt' := h
      by_cases ho : o = r
      · rw [if_neg (not_not_intro ho)] at h2
        injection h2 with h3
        exact h3.symm
      · rw [if_pos ho] at h2
        exact absurd h2 (by simp)
  · rw [if_neg hc] at h
    injection h with h2
    exact h2.symm

/-- C3: for every well-formed reservation-table state, cells `a` (from)
and `b` (to), time step `t ≥ 1` and robot id `r`, `is_reserved(a, b, t,
r)` returns `True` iff the cell entry `(b, t)` is present and owned by a
robot other than `r`, or the swap entry `(b, a, t)` is present,
regardless of its owner. -/
theorem is_reserved_iff_cell_or_swap (rt : RTable) (a b t : ℤ) (r : ℕ)
    (hWF : SyncInv rt) (hb : 0 ≤ b) (_ht : 1 ≤ t) :
    isReserved rt a b t (some r) = true ↔
      (((b, -1, t) ∈ rt.reservation ∧
        ∃ o : ℕ, dictLookup rt.owner (b, -1, t) = some o ∧ o ≠ r) ∨
      (b, a, t) ∈ rt.reservation) := by
  have hbne : ¬ b = -1 := by omega
  unfold isReserved
  simp only [if_neg hbne, Bool.or_eq_true, Bool.and_eq_true, decide_eq_true_eq]
  constructor
  · rintro (⟨hmem, hne⟩ | hswap)
    · left
      refine ⟨hmem, ?_⟩
      rcases Option.isSome_iff_exists.mp ((hWF.1 _).mp hmem) with ⟨o, ho⟩
      exact ⟨o, ho, fun hor => hne (by rw [ho, hor])⟩
    · right; exact hswap
  · rintro (⟨hmem, o, ho, hor⟩ | hswap)
    · left
      refine ⟨hmem, ?_⟩
      rw [ho]
      intro hc
      injection hc with hc2
      exact hor hc2
    · right; exact hswap

/-- Witness for C3 at a concrete table. -/
theorem is_reserved_iff_cell_or_swap_sample :
    SyncInv ⟨{((5 : ℤ), (-1 : ℤ), (2 : ℤ))}, [(((5 : ℤ), (-1 : ℤ), (2 : ℤ)), 1)]⟩ ∧
    (isReserved ⟨{((5 : ℤ), (-1 : ℤ), (2 : ℤ))}, [(((5 : ℤ), (-1 : ℤ), (2 : ℤ)), 1)]⟩
        4 5 2 (some 0) = true ↔
      ((((5 : ℤ), (-1 : ℤ), (2 : ℤ)) ∈
          ({((5 : ℤ), (-1 : ℤ), (2 : ℤ))} : Finset RKey) ∧
        ∃ o : ℕ, dictLookup [(((5 : ℤ), (-1 : ℤ), (2 : ℤ)), 1)]
            ((5 : ℤ), (-1 : ℤ), (2 : ℤ)) = some o ∧ o ≠ 0) ∨
      ((5 : ℤ), (4 : ℤ), (2 : ℤ)) ∈
        ({((5 : ℤ), (-1 : ℤ), (2 : ℤ))} : Finset RKey))) :=
  ⟨by decide,
    is_reserved_iff_cell_or_swap _ 4 5 2 0 (by decide) (by decide) (by decide)⟩

/-- C4: a strict reserve raises `ReservationConflict` exactly when the
cell entry `(b, t)` already exists with a different owner (the source
raises before any mutation, so the embedded `.error` outcome carries no
state change: the table remains the input table); on success it inserts
the cell entry and, when `a ≠ b`, the swap entry, both owned by the
caller, leaving every other dict entry unchanged; and re-reserving keys
the caller already owns returns the table entirely unchanged. -/
theorem add_reservation_strict_spec (rt : RTable) (a b t : ℤ) (r : ℕ)
    (hWF : SyncInv rt) (hb : 0 ≤ b) :
    (addReservation rt a b t r true = .error .conflict ↔
      ((b, -1, t) ∈ rt.reservation ∧
        ∃ o : ℕ, dictLookup rt.owner (b, -1, t) = some o ∧ o ≠ r))
    ∧ (∀ err : ResError, addReservation rt a b t r true = .error err →
        err = .conflict)
    ∧ (∀ rt' : RTable, addReservation rt a b t r true = .ok rt' →
        (rt'.reservation =
          if a ≠ b then insert (a, b, t) (insert (b, -1, t) rt.reservation)
          else insert (b, -1, t) rt.reservation)
        ∧ dictLookup rt'.owner (b, -1, t) = some r
        ∧ (¬ a = b → dictLookup rt'.owner (a, b, t) = some r)
        ∧ (∀ k : RKey, ¬ k = (b, -1, t) → ¬ k = (a, b, t) →
            dictLookup rt'.owner k = dictLookup rt.owner k))
    ∧ (dictLookup rt.owner (b, -1, t) = some r →
        (¬ a = b → dictLookup rt.owner (a, b, t) = some r) →
        addReservation rt a b t r true = .ok rt) := by
  have hbne : ¬ b = -1 := by omega
  rw [addReservation_eq_of_ne rt a b t r hbne]
  refine ⟨?_, ?_, ?_, ?_⟩
  · by_cases hmem : (b, -1, t) ∈ rt.reservation
    · rw [if_pos hmem]
      rcases Option.isSome_iff_exists.mp ((hWF.1 _).mp hmem) with ⟨o, ho⟩
      rw [ho]
      show (if o ≠ r then (Except.error ResError.conflict : Except ResError RTable)
          else Except.ok (addResCore rt a b t r)) = Except.error ResError.conflict ↔ _
      by_cases hor : o = r
      · rw [if_neg (not_not_intro hor)]
        constructor
        · intro hc; exact absurd hc (by simp)
        · rintro ⟨_, o2, ho2, ho2r⟩
          injection ho2 with ho3
          exact absurd (ho3 ▸ hor) ho2r
      · rw [if_pos hor]
        exact ⟨fun _ => ⟨hmem, o, rfl, hor⟩, fun _ => rfl⟩
    · rw [if_neg hmem]
      constructor
      · intro hc; exact absurd hc (by simp)
      · rintro ⟨hmem2, _⟩; exact absurd hmem2 hmem
  · intro err herr
    by_cases hmem : (b, -1, t) ∈ rt.reservation
    · rw [if_pos hmem] at herr
      rcases Option.isSome_iff_exists.mp ((hWF.1 _).mp hmem) with ⟨o, ho⟩
      rw [ho] at herr
      have herr2 : (if o ≠ r then (Except.error ResError.conflict : Except ResError RTable)
          else Except.ok (addResCore rt a b t r)) = Except.error err := herr
      by_cases hor : o = r
      · rw [if_neg (not_not_intro hor)] at herr2
        exact absurd herr2 (by simp)
      · rw [if_pos hor] at herr2
        injection herr2 with h2
        exact h2.symm
    · rw [if_neg hmem] at herr
      exact absurd herr (by simp)
  · intro rt' hok
    have hrt' : rt' = addResCore rt a b t r := by
      by_cases hmem : (b, -1, t) ∈ rt.reservation
      · rw [if_pos hmem] at hok
        rcases Option.isSome_iff_exists.mp ((hWF.1 _).mp hmem) with ⟨o, ho⟩
        rw [ho] at hok
        have hok2 : (if o ≠ r then (Except.error ResError.conflict : Except ResError RTable)
            else Except.ok (addResCore rt a b t r)) = Except.ok rt' := hok
        by_cases hor : o = r
        · rw [if_neg (not_not_intro hor)] at hok2
          injection hok2 with h2
          exact h2.symm
        · rw [if_pos hor] at hok2
          exact absurd hok2 (by simp)
      · rw [if_neg hmem] at hok
        injection hok with h2
        exact h2.symm
    subst hrt'
    refine ⟨?_, ?_, ?_, ?_⟩
    · exact addResCore_reservation rt a b t r
    · rw [addResCore_owner_lookup]
      by_cases hab : a = b
      · rw [if_neg (by simp [hab]), if_pos rfl]
      · rw [if_neg (by
          rintro ⟨_, hk⟩
          have h2 : (-1 : ℤ) = b := by
            have := congrArg (fun q : RKey => q.2.1) hk
            simpa using this
          exact hbne h2.symm), if_pos rfl]
    · intro hab
      rw [addResCore_owner_lookup, if_pos ⟨hab, rfl⟩]
    · intro k hk1 hk2
      rw [addResCore_owner_lookup, if_neg (by rintro ⟨_, h⟩; exact hk2 h),
        if_neg hk1]
  · intro hcell hedge
    have hmem : (b, -1, t) ∈ rt.reservation :=
      (hWF.1 _).mpr (by rw [hcell]; rfl)
    rw [if_pos hmem, hcell]
    show (if r ≠ r then (Except.error ResError.conflict : Except ResError RTable)
        else Except.ok (addResCore rt a b t r)) = Except.ok rt
    rw [if_neg (not_not_intro rfl)]
    have hcore : addResCore rt a b t r = rt := by
      by_cases hab : a = b
      · rw [addResCore_eq_neg rt a b t r hab]
        obtain ⟨res, own⟩ := rt
        simp only [RTable.mk.injEq]
        constructor
        · exact Finset.insert_eq_self.mpr hmem
        · exact dictUpsert_self _ _ _ hcell
      · rw [addResCore_eq_pos rt a b t r hab]
        have hedgemem : (a, b, t) ∈ rt.reservation :=
          (hWF.1 _).mpr (by rw [hedge hab]; rfl)
        obtain ⟨res, own⟩ := rt
        simp only [RTable.mk.injEq]
        constructor
        · rw [Finset.insert_eq_self.mpr (Finset.mem_insert_of_mem hedgemem),
            Finset.insert_eq_self.mpr]
          exact hmem
        · rw [dictUpsert_self _ _ _ hcell, dictUpsert_self _ _ _ (hedge hab)]
    rw [hcore]

/-- Witness for C4: a strict reserve against a foreign owner fails with
`ReservationConflict`. -/
theorem add_reservation_strict_sample :
    addReservation ⟨{((1 : ℤ), (-1 : ℤ), (4 : ℤ))},
        [(((1 : ℤ), (-1 : ℤ), (4 : ℤ)), 7)]⟩ 0 1 4 5 true = .error .conflict :=
  (add_reservation_strict_spec _ 0 1 4 5 (by decide) (by decide)).1.mpr (by decide)

/-- C8: a successful `add_reservation` and every
`revoke_all_reservations_of_robot` preserve the sync between the
reservation set and the ownership map (every reserved key has exactly
one owner); and revoking robot `r` returns exactly the keys `r` owned,
removes exactly those entries, and leaves every entry of other robots
unchanged. -/
theorem reservation_owner_sync_spec :
    (∀ (rt : RTable) (s e t : ℤ) (r : ℕ) (fail : Bool) (rt' : RTable),
      SyncInv rt → addReservation rt s e t r fail = .ok rt' → SyncInv rt')
    ∧ (∀ (rt : RTable) (r : ℕ), SyncInv rt → SyncInv (revokeAll rt r).2)
    ∧ (∀ (rt : RTable) (r : ℕ) (k : RKey), SyncInv rt →
        ((k ∈ (revokeAll rt r).1 ↔ dictLookup rt.owner k = some r)
        ∧ (∀ o : ℕ, dictLookup (revokeAll rt r).2.owner k = some o ↔
            (dictLookup rt.owner k = some o ∧ ¬ o = r))
        ∧ (k ∈ (revokeAll rt r).2.reservation ↔
            (k ∈ rt.reservation ∧ ¬ dictLookup rt.owner k = some r)))) := by
  refine ⟨?_, ?_, ?_⟩
  · intro rt s e t r fail rt' hWF hok
    rw [addReservation_ok_state rt s e t r fail rt' hok]
    exact addResCore_SyncInv _ _ _ _ _ hWF
  · intro rt r hWF
    exact revokeAll_SyncInv rt r hWF
  · intro rt r k hWF
    obtain ⟨hdom, hnd⟩ := hWF
    refine ⟨mem_ownedKeys_iff _ _ _ hnd, ?_, ?_⟩
    · intro o
      show dictLookup (removeOwned rt.owner r) k = some o ↔ _
      rw [dictLookup_removeOwned _ _ _ hnd]
      rcases hlk : dictLookup rt.owner k with _ | v
      · simp
      · show (if v = r then (none : Option ℕ) else some v) = some o ↔ _
        by_cases hv : v = r
        · subst hv
          rw [if_pos rfl]
          constructor
          · intro hc; exact absurd hc (by simp)
          · rintro ⟨hc, ho⟩
            injection hc with hc2
            exact absurd hc2.symm ho
        · rw [if_neg hv]
          constructor
          · intro hc
            injection hc with hc2
            subst hc2
            exact ⟨rfl, hv⟩
          · rintro ⟨hc, _⟩; exact hc
    · show k ∈ (ownedKeys rt.owner r).foldl (fun s k => s.erase k) rt.reservation ↔ _
      rw [mem_foldl_erase, mem_ownedKeys_iff _ _ _ hnd]

/-- Witness for C8 at a concrete three-entry table: revoking owner 7
keeps the table in sync and reports exactly the keys 7 owned. -/
theorem reservation_owner_sync_sample :
    SyncInv (revokeAll ⟨{((1 : ℤ), (-1 : ℤ), (4 : ℤ)), ((0 : ℤ), (1 : ℤ), (4 : ℤ)),
        ((2 : ℤ), (-1 : ℤ), (9 : ℤ))},
      [(((1 : ℤ), (-1 : ℤ), (4 : ℤ)), 7), (((0 : ℤ), (1 : ℤ), (4 : ℤ)), 7),
        (((2 : ℤ), (-1 : ℤ), (9 : ℤ)), 3)]⟩ 7).2 ∧
    (((0 : ℤ), (1 : ℤ), (4 : ℤ)) ∈
        (revokeAll ⟨{((1 : ℤ), (-1 : ℤ), (4 : ℤ)), ((0 : ℤ), (1 : ℤ), (4 : ℤ)),
            ((2 : ℤ), (-1 : ℤ), (9 : ℤ))},
          [(((1 : ℤ), (-1 : ℤ), (4 : ℤ)), 7), (((0 : ℤ), (1 : ℤ), (4 : ℤ)), 7),
            (((2 : ℤ), (-1 : ℤ), (9 : ℤ)), 3)]⟩ 7).1 ↔
      dictLookup
        [(((1 : ℤ), (-1 : ℤ), (4 : ℤ)), 7), (((0 : ℤ), (1 : ℤ), (4 : ℤ)), 7),
          (((2 : ℤ), (-1 : ℤ), (9 : ℤ)), 3)]
        ((0 : ℤ), (1 : ℤ), (4 : ℤ)) = some 7) :=
  ⟨reservation_owner_sync_spec.2.1 _ 7 (by decide),
    (reservation_owner_sync_spec.2.2 _ 7 ((0 : ℤ), (1 : ℤ), (4 : ℤ)) (by decide)).1⟩

/-! ### C2: the hold-in-place spans of the priority coordinator -/

/-- C2 (code bug): with `time_horizon = 2` and a single robot whose goal
queue is empty (facing a free cell, so no pre-reservation fires), the
priority coordinator reserves the robot's cell for the time steps
`{0, 1}` — `range(time_horizon)` — and not for `{1, 2}` as the
documented one-based convention and the neighbouring code paths
(`reserve_waiting_positions_for_all_robots`, the no-path waiting loop)
prescribe. -/
theorem empty_goal_hold_span_eval :
    (priorityPlanner ⟨1, 2, fun _ => false, 1, [⟨0, 0⟩], [[]]⟩ 1 2
        (defaultPlanFn ⟨1, 2, fun _ => false, 1, [⟨0, 0⟩], [[]]⟩ (fun _ _ _ => 0) 1) 1
        [] none).map (fun res =>
          (decide (((0 : ℤ), (-1 : ℤ), (0 : ℤ)) ∈ res.rt.reservation),
            decide (((0 : ℤ), (-1 : ℤ), (1 : ℤ)) ∈ res.rt.reservation),
            decide (((0 : ℤ), (-1 : ℤ), (2 : ℤ)) ∈ res.rt.reservation),
            res.rt.owner)) =
      some (true, true, false,
        [(((0 : ℤ), (-1 : ℤ), (0 : ℤ)), 0), (((0 : ℤ), (-1 : ℤ), (1 : ℤ)), 0)]) := by
  rfl

/-! ### C7: the action encoder -/

theorem setAct_length (tape : List (List ℕ)) (i r a : ℕ) :
    (setAct tape i r a).length = tape.length := by
  unfold setAct
  exact List.length_set ..

theorem getD_eq_getElem (tape : List (List ℕ)) (i : ℕ) (hi : i < tape.length) :
    tape.getD i [] = tape[i] := by
  simp [List.getD, List.getElem?_eq_getElem hi]

theorem tapeGet_setAct_self (tape : List (List ℕ)) (i r a : ℕ)
    (hi : i < tape.length) (hr : r < (tape.getD i []).length) :
    tapeGet (setAct tape i r a) i r = some a := by
  unfold tapeGet setAct
  rw [List.getElem?_set_eq_of_lt _ hi]
  show ((tape.getD i []).set r a)[r]? = some a
  exact List.getElem?_set_eq_of_lt a hr

theorem tapeGet_setAct_other (tape : List (List ℕ)) (i r a j x : ℕ)
    (h : ¬ (i = j ∧ x = r)) :
    tapeGet (setAct tape i r a) j x = tapeGet tape j x := by
  unfold tapeGet setAct
  by_cases hij : i = j
  · subst hij
    have hx : ¬ x = r := fun hc => h ⟨rfl, hc⟩
    by_cases hi : i < tape.length
    · rw [List.getElem?_set_eq_of_lt _ hi, List.getElem?_eq_getElem hi]
      show ((tape.getD i []).set r a)[x]? = (tape[i])[x]?
      rw [getD_eq_getElem tape i hi, List.getElem?_set_ne (fun hc => hx hc.symm)]
    · rw [List.set_eq_of_length_le (le_of_not_lt hi)]
  · rw [List.getElem?_set_ne hij]

theorem tapeGet_applyWrite_other (tape : List (List ℕ)) (i r : ℕ)
    (w : Option ℕ) (j x : ℕ) (h : ¬ (i = j ∧ x = r)) :
    tapeGet (applyWrite tape i r w) j x = tapeGet tape j x := by
  cases w with
  | none => rfl
  | some a => exact tapeGet_setAct_other tape i r a j x h

theorem applyWrite_length (tape : List (List ℕ)) (i r : ℕ) (w : Option ℕ) :
    (applyWrite tape i r w).length = tape.length := by
  cases w with
  | none => rfl
  | some a => exact setAct_length tape i r a

theorem applyWrite_rows (tape : List (List ℕ)) (i r : ℕ) (w : Option ℕ)
    (robot : ℕ) (hrow : ∀ row ∈ tape, robot < row.length) :
    ∀ row ∈ applyWrite tape i r w, robot < row.length := by
  cases w with
  | none => exact hrow
  | some a =>
    by_cases hi : i < tape.length
    · intro row2 hmem
      rcases List.mem_or_eq_of_mem_set hmem with hm | he
      · exact hrow _ hm
      · subst he
        rw [List.length_set, getD_eq_getElem tape i hi]
        exact hrow _ (List.getElem_mem hi)
    · rw [show applyWrite tape i r (some a) = tape from
        List.set_eq_of_length_le (le_of_not_lt hi)]
      exact hrow

theorem updateActionsGo_get_other (robot : ℕ) (uws : Bool)
    (steps : List (ℤ × ℤ)) :
    ∀ (tape : List (List ℕ)) (pl po : ℤ) (i j x : ℕ), ¬ x = robot →
      tapeGet (updateActionsGo robot uws tape steps pl po i) j x =
        tapeGet tape j x := by
  induction steps with
  | nil => intro tape pl po i j x _; rfl
  | cons s rest ih =>
    intro tape pl po i j x hx
    obtain ⟨l, o⟩ := s
    show tapeGet (updateActionsGo robot uws
      (applyWrite tape i robot (encodeWrite uws pl po l o)) rest l o (i + 1)) j x = _
    rw [ih _ l o (i + 1) j x hx,
      tapeGet_applyWrite_other _ _ _ _ _ _ (fun hc => hx hc.2)]

theorem updateActionsGo_get_out (robot : ℕ) (uws : Bool)
    (steps : List (ℤ × ℤ)) :
    ∀ (tape : List (List ℕ)) (pl po : ℤ) (i j x : ℕ),
      (j < i ∨ i + steps.length ≤ j) →
      tapeGet (updateActionsGo robot uws tape steps pl po i) j x =
        tapeGet tape j x := by
  induction steps with
  | nil => intro tape pl po i j x _; rfl
  | cons s rest ih =>
    intro tape pl po i j x hj
    obtain ⟨l, o⟩ := s
    have hne : ¬ i = j := by
      rcases hj with hj | hj
      · omega
      · simp only [List.length_cons] at hj; omega
    have hj2 : j < i + 1 ∨ (i + 1) + rest.length ≤ j := by
      rcases hj with hj | hj
      · left; omega
      · right; simp only [List.length_cons] at hj; omega
    show tapeGet (updateActionsGo robot uws
      (applyWrite tape i robot (encodeWrite uws pl po l o)) rest l o (i + 1)) j x = _
    rw [ih _ l o (i + 1) j x hj2,
      tapeGet_applyWrite_other _ _ _ _ _ _ (fun hc => hne hc.1)]

theorem updateActionsGo_get_at (robot : ℕ) (uws : Bool)
    (steps : List (ℤ × ℤ)) :
    ∀ (tape : List (List ℕ)) (pl po : ℤ) (i j : ℕ), i ≤ j →
      j < i + steps.length → j < tape.length →
      (∀ row ∈ tape, robot < row.length) →
      tapeGet (updateActionsGo robot uws tape steps pl po i) j robot =
        (match encodeWrite uws
            (if j = i then pl else (steps.getD (j - i - 1) (0, 0)).1)
            (if j = i then po else (steps.getD (j - i - 1) (0, 0)).2)
            (steps.getD (j - i) (0, 0)).1 (steps.getD (j - i) (0, 0)).2 with
          | some a => some a
          | none => tapeGet tape j robot) := by
  induction steps with
  | nil =>
    intro tape pl po i j h1 h2 _ _
    simp only [List.length_nil, Nat.add_zero] at h2
    omega
  | cons s rest ih =>
    intro tape pl po i j h1 h2 h3 hrow
    obtain ⟨l, o⟩ := s
    show tapeGet (updateActionsGo robot uws
      (applyWrite tape i robot (encodeWrite uws pl po l o)) rest l o (i + 1)) j robot = _
    by_cases hji : j = i
    · subst hji
      rw [updateActionsGo_get_out robot uws rest _ l o (j + 1) j robot
        (Or.inl (by omega))]
      simp only [eq_self_iff_true, if_true, Nat.sub_self, List.getD_cons_zero]
      rcases hw : encodeWrite uws pl po l o with _ | a
      · rfl
      · exact tapeGet_setAct_self tape j robot a h3 (by
          rw [getD_eq_getElem tape j h3]
          exact hrow _ (List.getElem_mem h3))
    · have hij1 : i + 1 ≤ j := by omega
      have h2b : j < (i + 1) + rest.length := by
        simp only [List.length_cons] at h2; omega
      rw [ih (applyWrite tape i robot (encodeWrite uws pl po l o)) l o (i + 1) j hij1 h2b
        (by rw [applyWrite_length]; exact h3)
        (applyWrite_rows _ _ _ _ _ hrow)]
      have e0 : tapeGet (applyWrite tape i robot (encodeWrite uws pl po l o)) j robot =
          tapeGet tape j robot :=
        tapeGet_applyWrite_other _ _ _ _ _ _ (fun hc => hji hc.1.symm)
      rw [e0]
      have e1 : (if j = i + 1 then l else (rest.getD (j - (i + 1) - 1) (0, 0)).1) =
          (if j = i then pl else ((((l, o) : ℤ × ℤ) :: rest).getD (j - i - 1) (0, 0)).1) := by
        rw [if_neg hji]
        by_cases hji1 : j = i + 1
        · rw [if_pos hji1]
          have : j - i - 1 = 0 := by omega
          rw [this, List.getD_cons_zero]
        · rw [if_neg hji1]
          have hsub : j - i - 1 = (j - (i + 1) - 1) + 1 := by omega
          rw [hsub, List.getD_cons_succ]
      have e2 : (if j = i + 1 then o else (rest.getD (j - (i + 1) - 1) (0, 0)).2) =
          (if j = i then po else ((((l, o) : ℤ × ℤ) :: rest).getD (j - i - 1) (0, 0)).2) := by
        rw [if_neg hji]
        by_cases hji1 : j = i + 1
        · rw [if_pos hji1]
          have : j - i - 1 = 0 := by omega
          rw [this, List.getD_cons_zero]
        · rw [if_neg hji1]
          have hsub : j - i - 1 = (j - (i + 1) - 1) + 1 := by omega
          rw [hsub, List.getD_cons_succ]
      have e3 : rest.getD (j - (i + 1)) (0, 0) =
          (((l, o) : ℤ × ℤ) :: rest).getD (j - i) (0, 0) := by
        have hsub : j - i = (j - (i + 1)) + 1 := by omega
        rw [hsub, List.getD_cons_succ]
      rw [e1, e2, e3]

theorem encodeWrite_cases (uws : Bool) (pl po l o : ℤ)
    (hpo0 : 0 ≤ po) (hpo4 : po < 4) (ho0 : 0 ≤ o) (ho4 : o < 4) :
    (encodeWrite uws pl po l o = some actFW ↔ ¬ l = pl)
    ∧ (encodeWrite uws pl po l o = some actCR ↔ (l = pl ∧ (o - po) % 4 = 1))
    ∧ (encodeWrite uws pl po l o = some actCCR ↔ (l = pl ∧ (o - po) % 4 = 3))
    ∧ (encodeWrite uws pl po l o = some actW ↔ (l = pl ∧ o = po ∧ uws = true)) := by
  unfold encodeWrite actFW actCR actCCR actW
  rcases uws with _ | _ <;>
    split_ifs <;>
      refine ⟨?_, ?_, ?_, ?_⟩ <;>
        simp_all <;> omega

/-- C7: for every path and every starting pose, the encoder writes only
rows `i < min(len(path), R)`, touches only the planned robot's column,
and the action written at row `i` is determined by comparing
`(path[i].cell, path[i].facing)` against the previous pose: FW exactly
when the cell changed, CR exactly when the facing changed by +1 mod 4,
CCR exactly when it changed by −1 mod 4, and WAIT only under the
explicit `update_wait_steps` overlay when the pose is unchanged (a `none`
write leaves the previous tape entry in place). -/
theorem update_next_actions_spec (env : Env) (Rp : ℕ) (tape : List (List ℕ))
    (path : List (ℤ × ℤ)) (robot : ℕ) (uws : Bool)
    (hrow : ∀ row ∈ tape, robot < row.length) :
    (∀ i x : ℕ, ¬ x = robot →
      tapeGet (updateNextActions env Rp tape path robot uws) i x = tapeGet tape i x)
    ∧ (∀ i x : ℕ, min path.length Rp ≤ i →
      tapeGet (updateNextActions env Rp tape path robot uws) i x = tapeGet tape i x)
    ∧ (∀ i : ℕ, i < min path.length Rp → i < tape.length →
      tapeGet (updateNextActions env Rp tape path robot uws) i robot =
        (match encodeWrite uws
            (if i = 0 then (stateOf env robot).location else (path.getD (i - 1) (0, 0)).1)
            (if i = 0 then (stateOf env robot).orientation else (path.getD (i - 1) (0, 0)).2)
            (path.getD i (0, 0)).1 (path.getD i (0, 0)).2 with
          | some a => some a
          | none => tapeGet tape i robot))
    ∧ (∀ pl po l o : ℤ, 0 ≤ po → po < 4 → 0 ≤ o → o < 4 →
        ((encodeWrite uws pl po l o = some actFW ↔ ¬ l = pl)
        ∧ (encodeWrite uws pl po l o = some actCR ↔ (l = pl ∧ (o - po) % 4 = 1))
        ∧ (encodeWrite uws pl po l o = some actCCR ↔ (l = pl ∧ (o - po) % 4 = 3))
        ∧ (encodeWrite uws pl po l o = some actW ↔ (l = pl ∧ o = po ∧ uws = true)))) := by
  have htl : (path.take Rp).length = min path.length Rp := by
    rw [List.length_take, Nat.min_comm]
  have htd : ∀ k : ℕ, k < min path.length Rp →
      (path.take Rp).getD k (0, 0) = path.getD k (0, 0) := by
    intro k hk
    simp only [List.getD, List.get?_eq_getElem?]
    rw [List.getElem?_take, if_pos (show k < Rp by omega)]
  refine ⟨?_, ?_, ?_, ?_⟩
  · intro i x hx
    exact updateActionsGo_get_other robot uws (path.take Rp) tape _ _ 0 i x hx
  · intro i x hi
    refine updateActionsGo_get_out robot uws (path.take Rp) tape _ _ 0 i x ?_
    right
    rw [htl]
    omega
  · intro i hi hit
    unfold updateNextActions
    rw [updateActionsGo_get_at robot uws (path.take Rp) tape _ _ 0 i (Nat.zero_le i)
      (by rw [htl]; omega) hit hrow]
    have e1 : (if i = 0 then (stateOf env robot).location
        else ((path.take Rp).getD (i - 0 - 1) (0, 0)).1) =
        (if i = 0 then (stateOf env robot).location
          else (path.getD (i - 1) (0, 0)).1) := by
      by_cases hi0 : i = 0
      · rw [if_pos hi0, if_pos hi0]
      · rw [if_neg hi0, if_neg hi0, Nat.sub_zero, htd (i - 1) (by omega)]
    have e2 : (if i = 0 then (stateOf env robot).orientation
        else ((path.take Rp).getD (i - 0 - 1) (0, 0)).2) =
        (if i = 0 then (stateOf env robot).orientation
          else (path.getD (i - 1) (0, 0)).2) := by
      by_cases hi0 : i = 0
      · rw [if_pos hi0, if_pos hi0]
      · rw [if_neg hi0, if_neg hi0, Nat.sub_zero, htd (i - 1) (by omega)]
    have e3 : (path.take Rp).getD (i - 0) (0, 0) = path.getD i (0, 0) := by
      rw [Nat.sub_zero, htd i hi]
    rw [e1, e2, e3]
  · intro pl po l o h1 h2 h3 h4
    exact encodeWrite_cases uws pl po l o h1 h2 h3 h4

/-- Witness for C7: with a robot at cell 0 facing east and a path
stepping to cell 1, the encoder writes FW into row 0 of the tape. -/
theorem update_next_actions_sample :
    tapeGet (updateNextActions ⟨1, 3, fun _ => false, 1, [⟨0, 0⟩], [[(2, 0)]]⟩ 2
      [[3], [3], [3]] [(1, 0), (1, 1)] 0 false) 0 0 = some actFW := by
  have h := (update_next_actions_spec ⟨1, 3, fun _ => false, 1, [⟨0, 0⟩], [[(2, 0)]]⟩ 2
    [[3], [3], [3]] [(1, 0), (1, 1)] 0 false (by decide)).2.2.1 0 (by decide) (by decide)
  rw [h]
  rfl

/-! ### C5: empty goal queues under the two coordinators -/

/-- C5 (code bug): the detour coordinator does not guard against an
empty goal queue — it evaluates `env.goal_locations[r][0][0]`
unconditionally, which raises `IndexError` (embedded as `none`), so the
call emits nothing at all instead of WAIT actions.  Evaluated on a
single robot with an empty goal queue. -/
theorem detour_empty_goal_raises :
    detourPlanner ⟨1, 2, fun _ => false, 1, [⟨0, 0⟩], [[]]⟩ 1 2 (fun _ _ _ => 0) 5
      (fun _ => false) [] 3 = none := by
  rfl

/-! ### C1: termination of the restart driver -/

theorem innerDraw_id_stuck (f : ℕ) (base : List ℕ) (tried : List (List ℕ))
    (rs : ℕ) (h : base ∈ tried) :
    innerDraw (fun l r => (l, r)) f base tried rs = none := by
  induction f generalizing rs with
  | zero => rfl
  | succ n ih => simp [innerDraw, h, ih]

theorem updateBest_order (st : RLSt) (out : LLOut) :
    (updateBest st out).order = st.order := by
  unfold updateBest; split_ifs <;> rfl

theorem updateBest_tried (st : RLSt) (out : LLOut) :
    (updateBest st out).tried = st.tried := by
  unfold updateBest; split_ifs <;> rfl

theorem updateBest_iter (st : RLSt) (out : LLOut) :
    (updateBest st out).iter = st.iter := by
  unfold updateBest; split_ifs <;> rfl

theorem updateBest_lastFix (st : RLSt) (out : LLOut) :
    (updateBest st out).lastFix = st.lastFix := by
  unfold updateBest; split_ifs <;> rfl

theorem updateBest_tape (st : RLSt) (out : LLOut) :
    (updateBest st out).tape = st.tape := by
  unfold updateBest; split_ifs <;> rfl

theorem updateBest_best (st : RLSt) (out : LLOut) :
    (updateBest st out).best = st.best ∨ (updateBest st out).best = st.tape := by
  unfold updateBest
  split_ifs
  · right; rfl
  · left; rfl

theorem updateBest_best_prop (st : RLSt) (out : LLOut)
    (P : List (List ℕ) → Prop) (h1 : P st.best) (h2 : P st.tape) :
    P (updateBest st out).best := by
  unfold updateBest
  split_ifs
  · exact h2
  · exact h1

/-- One unfolding step of the restart loop when no time limit is set
(the clock guard can then never fire). -/
theorem restartLoop_none_succ (NR : Option ℤ) (tff : Bool) (mf : ℚ)
    (ll : ℤ → List ℕ → LLOut) (fx : List ℕ → List ℕ → LLOut)
    (draw : List ℕ → List (List ℕ) → ℕ → Option (List ℕ × ℕ))
    (clock : ℕ → ℚ) (n : ℕ) (st : RLSt) :
    restartLoop none NR tff mf ll fx draw clock (n + 1) st =
      (if nrBreak NR (st.iter + 1) then rlFin { st with iter := st.iter + 1 }
      else if tff && !st.lastFix then
        restartLoop none NR tff mf ll fx draw clock n
          (updateBest
            { st with
              iter := st.iter + 1 - 1
              lastFix := true
              tape := (fx st.order st.stuckIds).tape
              stuckIds := (fx st.order st.stuckIds).waitingIds }
            (fx st.order st.stuckIds))
      else
        match draw st.order st.tried st.rs with
        | none => none
        | some (newOrder, rs2) =>
          restartLoop none NR tff mf ll fx draw clock n
            (updateBest
              { st with
                iter := st.iter + 1
                order := newOrder
                tried := newOrder :: st.tried
                rs := rs2
                clk := st.clk + 2
                ptimes := dqAppend st.ptimes (clock (st.clk + 1) - clock st.clk)
                tape := (ll (st.iter + 1) newOrder).tape
                stuckIds := (ll (st.iter + 1) newOrder).waitingIds
                lastFix := false }
              (ll (st.iter + 1) newOrder))) := by
  rfl

theorem restartLoop_stuck (tff : Bool) (mf : ℚ) (ll : ℤ → List ℕ → LLOut)
    (fx : List ℕ → List ℕ → LLOut) (clock : ℕ → ℚ) (innerFuel : ℕ) :
    ∀ (fuel : ℕ) (st : RLSt), st.order ∈ st.tried →
      restartLoop none none tff mf ll fx
        (fun b t r => innerDraw (fun l r2 => (l, r2)) innerFuel b t r) clock fuel st =
      none := by
  intro fuel
  induction fuel with
  | zero => intro st _; rfl
  | succ n ih =>
    intro st hmem
    rw [restartLoop_none_succ]
    rw [show nrBreak none (st.iter + 1) = false from rfl]
    rw [if_neg (by simp)]
    by_cases hfix : (tff && !st.lastFix) = true
    · rw [if_pos hfix]
      apply ih
      rw [updateBest_order, updateBest_tried]
      exact hmem
    · rw [if_neg hfix]
      rw [innerDraw_id_stuck innerFuel _ _ _ hmem]

/-- C1 counterexample: with restarts enabled, an unbounded budget
(`time_limit = 2147483647`, mapped to `None`) and no restart-count limit
configured, the driver entry never returns — for every amount of loop
fuel and of inner-shuffle fuel the embedded `plan` yields no result (on
a single robot the inner draw can never produce an untried permutation,
and neither exit guard can ever fire). -/
theorem restart_unbounded_never_returns :
    (fun (fuel innerFuel : ℕ) =>
        planEntry 2147483647 1 none 0 [] true none true 2
          (fun _ _ => ⟨[[3]], 0, 0, []⟩) (fun _ _ => ⟨[[3]], 0, 0, []⟩)
          (fun b t r => innerDraw (fun l r2 => (l, r2)) innerFuel b t r)
          (fun _ => 0) [0] 0 fuel) =
      (fun _ _ => none) := by
  funext fuel innerFuel
  show planEntry 2147483647 1 none 0 [] true none true 2
      (fun _ _ => ⟨[[3]], 0, 0, []⟩) (fun _ _ => ⟨[[3]], 0, 0, []⟩)
      (fun b t r => innerDraw (fun l r2 => (l, r2)) innerFuel b t r)
      (fun _ => 0) [0] 0 fuel = none
  have h := restartLoop_stuck true 2 (fun _ _ => (⟨[[3]], 0, 0, []⟩ : LLOut))
    (fun _ _ => (⟨[[3]], 0, 0, []⟩ : LLOut)) (fun _ => 0) innerFuel fuel
    { iter := 0
      tried := [[0]]
      order := [0]
      lastFix := false
      ptimes := []
      rs := 0
      clk := 3
      startTime := 0
      best := [[3]]
      minWaiting := 0
      minPls := 0
      tape := [[3]]
      stuckIds := [] } (by simp)
  exact h

/-- The restart loop with a one-restart limit (`restart_count = 2` maps to
`number_of_restarts = 1`) never exits when the current order is already in
`tried_priority_orders` and the faithful inner shuffle can only redraw it:
the count guard needs `iteration_count > 1`, which requires a fresh draw
first, and fix steps are not counted. -/
theorem restartLoop_stuck_bounded (tff : Bool) (mf : ℚ) (ll : ℤ → List ℕ → LLOut)
    (fx : List ℕ → List ℕ → LLOut) (clock : ℕ → ℚ) (innerFuel : ℕ) :
    ∀ (fuel : ℕ) (st : RLSt), st.order ∈ st.tried → st.iter = 0 →
      restartLoop none (some 1) tff mf ll fx
        (fun b t r => innerDraw (fun l r2 => (l, r2)) innerFuel b t r) clock fuel st =
      none := by
  intro fuel
  induction fuel with
  | zero => intro st _ _; rfl
  | succ n ih =>
    intro st hmem hiter
    rw [restartLoop_none_succ, hiter]
    rw [show nrBreak (some 1) (0 + 1) = false from rfl]
    rw [if_neg (by simp)]
    by_cases hfix : (tff && !st.lastFix) = true
    · rw [if_pos hfix]
      apply ih
      · rw [updateBest_order, updateBest_tried]
        exact hmem
      · rw [updateBest_iter]
        show (0 : ℤ) + 1 - 1 = 0
        decide
    · rw [if_neg hfix]
      rw [innerDraw_id_stuck innerFuel _ _ _ hmem]

/-- Even with a restart-count limit configured (`restart_count = 2`), the
inner permutation-shuffle loop diverges once no untried permutation can be
drawn: with a single robot the only permutation is already tried after the
first coordinator call, so the embedded `plan` yields no result for every
amount of loop fuel and of inner-shuffle fuel. -/
theorem restart_count_single_robot_diverges :
    (fun (fuel innerFuel : ℕ) =>
        planEntry 2147483647 1 none 0 [] true (some 2) true 2
          (fun _ _ => ⟨[[3]], 0, 0, []⟩) (fun _ _ => ⟨[[3]], 0, 0, []⟩)
          (fun b t r => innerDraw (fun l r2 => (l, r2)) innerFuel b t r)
          (fun _ => 0) [0] 0 fuel) =
      (fun _ _ => none) := by
  funext fuel innerFuel
  show planEntry 2147483647 1 none 0 [] true (some 2) true 2
      (fun _ _ => ⟨[[3]], 0, 0, []⟩) (fun _ _ => ⟨[[3]], 0, 0, []⟩)
      (fun b t r => innerDraw (fun l r2 => (l, r2)) innerFuel b t r)
      (fun _ => 0) [0] 0 fuel = none
  exact restartLoop_stuck_bounded true 2 (fun _ _ => (⟨[[3]], 0, 0, []⟩ : LLOut))
    (fun _ _ => (⟨[[3]], 0, 0, []⟩ : LLOut)) (fun _ => 0) innerFuel fuel
    { iter := 0
      tried := [[0]]
      order := [0]
      lastFix := false
      ptimes := []
      rs := 0
      clk := 3
      startTime := 0
      best := [[3]]
      minWaiting := 0
      minPls := 0
      tape := [[3]]
      stuckIds := [] } (by simp) rfl

/-- One-step evaluation of the driver entry with random restarts disabled:
either the replanning-period test fires and the first coordinator call's
tape is returned, or the stored tape is popped; the restart loop is never
entered. -/
theorem planEntry_no_restarts_eq (timeLimit : ℤ) (Rp : ℕ) (lastPlan : Option ℤ)
    (curr : ℤ) (storedTape : List (List ℕ)) (restartCount : Option ℤ) (tff : Bool)
    (mf : ℚ) (lowLevel : ℤ → List ℕ → LLOut) (fixFn : List ℕ → List ℕ → LLOut)
    (draw : List ℕ → List (List ℕ) → ℕ → Option (List ℕ × ℕ))
    (clock : ℕ → ℚ) (order0 : List ℕ) (rs0 : ℕ) (loopFuel : ℕ) :
    planEntry timeLimit Rp lastPlan curr storedTape false restartCount tff mf
      lowLevel fixFn draw clock order0 rs0 loopFuel =
      (if (match lastPlan with
          | none => true
          | some lp => decide (lp + (Rp : ℤ) ≤ curr)) = true then
        match (lowLevel 0 order0).tape with
        | [] => none
        | row :: rest => some (row, rest)
      else
        match storedTape with
        | [] => none
        | row :: rest => some (row, rest)) := rfl

/-- **C1** (amended): the driver entry terminates and returns exactly one
action per robot when random restarts are disabled: `plan` returns right
after the first coordinator call (or pops the stored tape when within the
replanning period), for every time-limit and restart-count configuration,
every clock and every draw stream, provided the coordinator tapes and the
stored tape are nonempty with rows of length N (which the coordinators
guarantee).  With restarts enabled termination is not guaranteed: with an
unbounded budget and no restart-count limit neither exit guard can ever
fire (the counterexample), and even a configured restart count diverges in
the inner shuffle loop once no untried permutation can be drawn
(`restartLoop_stuck_bounded`). -/
theorem plan_terminates_without_restarts
    (timeLimit : ℤ) (Rp : ℕ) (lastPlan : Option ℤ) (curr : ℤ)
    (storedTape : List (List ℕ)) (restartCount : Option ℤ) (tff : Bool) (mf : ℚ)
    (lowLevel : ℤ → List ℕ → LLOut) (fixFn : List ℕ → List ℕ → LLOut)
    (draw : List ℕ → List (List ℕ) → ℕ → Option (List ℕ × ℕ))
    (clock : ℕ → ℚ) (order0 : List ℕ) (rs0 : ℕ) (loopFuel : ℕ) (N : ℕ)
    (hll : ¬ (lowLevel 0 order0).tape = [] ∧
      ∀ row ∈ (lowLevel 0 order0).tape, row.length = N)
    (hstored : ¬ storedTape = [] ∧ ∀ row ∈ storedTape, row.length = N) :
    ∃ (row : List ℕ) (rest : List (List ℕ)),
      planEntry timeLimit Rp lastPlan curr storedTape false restartCount tff mf
        lowLevel fixFn draw clock order0 rs0 loopFuel = some (row, rest) ∧
      row.length = N := by
  rcases hlt : (lowLevel 0 order0).tape with _ | ⟨row, rest⟩
  · exact absurd hlt hll.1
  rcases hst : storedTape with _ | ⟨srow, srest⟩
  · exact absurd hst hstored.1
  rw [planEntry_no_restarts_eq, hlt]
  split_ifs with hnr
  · exact ⟨row, rest, rfl, hll.2 row (by rw [hlt]; exact List.mem_cons_self ..)⟩
  · exact ⟨srow, srest, rfl, hstored.2 srow (by rw [hst]; exact List.mem_cons_self ..)⟩

/-- Witness for the amended C1 at a concrete configuration: restarts
disabled, two robots, the C++ no-limit sentinel, a restart count
configured (ignored on this path), and the faithful inner-shuffle draw. -/
theorem plan_terminates_without_restarts_sample :
    ∃ (row : List ℕ) (rest : List (List ℕ)),
      planEntry 2147483647 1 none 0 [[3, 3]] false (some 2) true 2
        (fun _ _ => ⟨[[3, 3]], 0, 0, []⟩) (fun _ _ => ⟨[[3, 3]], 0, 0, []⟩)
        (fun b t r => innerDraw (fun l r2 => (l, r2)) 5 b t r)
        (fun _ => 0) [0, 1] 0 5 = some (row, rest) ∧
      row.length = 2 :=
  plan_terminates_without_restarts 2147483647 1 none 0 [[3, 3]] (some 2) true 2
    (fun _ _ => ⟨[[3, 3]], 0, 0, []⟩) (fun _ _ => ⟨[[3, 3]], 0, 0, []⟩)
    (fun b t r => innerDraw (fun l r2 => (l, r2)) 5 b t r)
    (fun _ => 0) [0, 1] 0 5 2
    ⟨by simp, by decide⟩
    ⟨by simp, by decide⟩

/-! ### C9: determinism — the wall clock cannot influence the result -/

theorem updateBest_rel {s1 s2 : RLSt} {out : LLOut} (h : RLRel s1 s2) :
    RLRel (updateBest s1 out) (updateBest s2 out) := by
  obtain ⟨h1, h2, h3, h4, h5, h6, h7, h8, h9, h10⟩ := h
  unfold updateBest
  rw [h7, h8]
  split_ifs with hc
  · exact ⟨h1, h2, h3, h4, h5, h9, rfl, rfl, h9, h10⟩
  · exact ⟨h1, h2, h3, h4, h5, h6, h7, h8, h9, h10⟩

theorem restartLoop_clock_irrel (NR : Option ℤ) (tff : Bool) (mf : ℚ)
    (ll : ℤ → List ℕ → LLOut) (fx : List ℕ → List ℕ → LLOut)
    (draw : List ℕ → List (List ℕ) → ℕ → Option (List ℕ × ℕ))
    (clock1 clock2 : ℕ → ℚ) :
    ∀ (fuel : ℕ) (s1 s2 : RLSt), RLRel s1 s2 →
      restartLoop none NR tff mf ll fx draw clock1 fuel s1 =
        restartLoop none NR tff mf ll fx draw clock2 fuel s2 := by
  intro fuel
  induction fuel with
  | zero => intro s1 s2 _; rfl
  | succ n ih =>
    intro s1 s2 hrel
    obtain ⟨h1, h2, h3, h4, h5, h6, h7, h8, h9, h10⟩ := hrel
    rw [restartLoop_none_succ, restartLoop_none_succ, h1]
    by_cases hbr : nrBreak NR (s2.iter + 1) = true
    · rw [if_pos hbr, if_pos hbr]
      unfold rlFin
      rw [h6]
    · rw [if_neg hbr, if_neg hbr, h4]
      by_cases hfix : (tff && !s2.lastFix) = true
      · rw [if_pos hfix, if_pos hfix, h3, h10]
        apply ih
        exact updateBest_rel ⟨rfl, h2, rfl, rfl, h5, h6, h7, h8, rfl, rfl⟩
      · rw [if_neg hfix, if_neg hfix, h3, h2, h5]
        rcases hdq : draw s2.order s2.tried s2.rs with _ | ⟨newOrder, rs2⟩
        · rfl
        · apply ih
          exact updateBest_rel ⟨rfl, rfl, rfl, rfl, rfl, h6, h7, h8, rfl, rfl⟩

/-- C9: for a fixed environment trace and an iteration-count budget
(restart count configured, `time_limit` unbounded and hence mapped to
`None`), the driver's result does not depend on the wall clock at all:
two runs that differ only in their clock readings produce identical
results.  Together with the explicitly shared permutation stream (the
PRNG is seeded to 42 at construction) and the purely functional
coordinator calls, two runs of the planner constructed with the same
arguments produce identical action tapes on every tick. -/
theorem driver_clock_noninterference (restarts : Bool) (restartCount : Option ℤ)
    (tff : Bool) (mf : ℚ)
    (lowLevel : ℤ → List ℕ → LLOut) (fixFn : List ℕ → List ℕ → LLOut)
    (draw : List ℕ → List (List ℕ) → ℕ → Option (List ℕ × ℕ))
    (clock1 clock2 : ℕ → ℚ) (order0 : List ℕ) (rs0 : ℕ) (fuel : ℕ) :
    planWithRandomRestarts restarts none restartCount tff mf lowLevel fixFn draw
        clock1 order0 rs0 fuel =
      planWithRandomRestarts restarts none restartCount tff mf lowLevel fixFn draw
        clock2 order0 rs0 fuel := by
  unfold planWithRandomRestarts
  by_cases hres : restarts = false
  · rw [if_pos hres, if_pos hres]
  · rw [if_neg hres, if_neg hres]
    exact restartLoop_clock_irrel _ tff mf lowLevel fixFn draw clock1 clock2 fuel _ _
      ⟨rfl, rfl, rfl, rfl, rfl, rfl, rfl, rfl, rfl, rfl⟩

/-! ### Foundations for the conflict-propagation development (C6, C10) -/

theorem dictLookup_mem (m : List (RKey × ℕ)) (k : RKey) (v : ℕ)
    (h : dictLookup m k = some v) : (k, v) ∈ m := by
  induction m with
  | nil => simp [dictLookup] at h
  | cons p rest ih =>
    obtain ⟨pk, pv⟩ := p
    by_cases hk : pk = k
    · subst hk
      rw [dictLookup_cons_self] at h
      obtain rfl : pv = v := by injection h
      exact List.mem_cons_self _ _
    · rw [dictLookup_cons_ne _ _ _ _ hk] at h
      exact List.mem_cons_of_mem _ (ih h)

theorem mem_iff_dictLookup (m : List (RKey × ℕ)) (k : RKey) (v : ℕ) :
    (m.map Prod.fst).Nodup → ((k, v) ∈ m ↔ dictLookup m k = some v) := by
  induction m with
  | nil => intro _; simp [dictLookup]
  | cons p rest ih =>
    intro hnd
    obtain ⟨pk, pv⟩ := p
    simp only [List.map_cons, List.nodup_cons] at hnd
    by_cases hk : pk = k
    · subst hk
      rw [dictLookup_cons_self]
      constructor
      · intro hmem
        rcases List.mem_cons.mp hmem with h | h
        · simp only [Prod.mk.injEq] at h
          rw [h.2]
        · exact absurd (List.mem_map_of_mem Prod.fst h) hnd.1
      · intro h
        obtain rfl : pv = v := by injection h
        exact List.mem_cons_self _ _
    · rw [dictLookup_cons_ne _ _ _ _ hk, ← ih hnd.2]
      simp only [List.mem_cons, Prod.mk.injEq]
      constructor
      · rintro (⟨h1, _⟩ | h)
        · exact absurd h1.symm hk
        · exact h
      · exact Or.inr

theorem mem_dictUpsert (m : List (RKey × ℕ)) (k : RKey) (v : ℕ)
    (p : RKey × ℕ) (h : p ∈ dictUpsert m k v) : p ∈ m ∨ p = (k, v) := by
  induction m with
  | nil =>
    right
    simpa [dictUpsert] using h
  | cons q rest ih =>
    obtain ⟨qk, qv⟩ := q
    by_cases hq : qk = k
    · subst hq
      rw [dictUpsert_cons_self] at h
      rcases List.mem_cons.mp h with h | h
      · exact Or.inr h
      · exact Or.inl (List.mem_cons_of_mem _ h)
    · rw [dictUpsert_cons_ne _ _ _ _ _ hq] at h
      rcases List.mem_cons.mp h with h | h
      · exact Or.inl (by rw [h]; exact List.mem_cons_self _ _)
      · rcases ih h with h2 | h2
        · exact Or.inl (List.mem_cons_of_mem _ h2)
        · exact Or.inr h2

theorem mem_removeOwned (m : List (RKey × ℕ)) (r : ℕ) (p : RKey × ℕ) :
    p ∈ removeOwned m r ↔ p ∈ m ∧ ¬ p.2 = r := by
  induction m with
  | nil => simp [removeOwned]
  | cons q rest ih =>
    obtain ⟨qk, qv⟩ := q
    have hun : removeOwned ((qk, qv) :: rest) r =
        if qv = r then removeOwned rest r else (qk, qv) :: removeOwned rest r := rfl
    by_cases hv : qv = r
    · rw [hun, if_pos hv, ih]
      constructor
      · rintro ⟨h1, h2⟩
        exact ⟨List.mem_cons_of_mem _ h1, h2⟩
      · rintro ⟨h1, h2⟩
        rcases List.mem_cons.mp h1 with h3 | h3
        · exfalso
          apply h2
          rw [h3]
          exact hv
        · exact ⟨h3, h2⟩
    · rw [hun, if_neg hv]
      constructor
      · intro h
        rcases List.mem_cons.mp h with h3 | h3
        · refine ⟨by rw [h3]; exact List.mem_cons_self _ _, ?_⟩
          rw [h3]
          exact hv
        · obtain ⟨h4, h5⟩ := ih.mp h3
          exact ⟨List.mem_cons_of_mem _ h4, h5⟩
      · rintro ⟨h1, h2⟩
        rcases List.mem_cons.mp h1 with h3 | h3
        · rw [h3]
          exact List.mem_cons_self _ _
        · exact List.mem_cons_of_mem _ (ih.mpr ⟨h3, h2⟩)

theorem mem_foreignRobots (env : Env) (rt : RTable) (x : ℕ) :
    x ∈ foreignRobots env rt ↔
      x < env.numAgents ∧ ∃ p ∈ rt.owner, p.2 = x ∧ p.1.2.1 = -1 ∧
        ¬ p.1.1 = (stateOf env x).location := by
  unfold foreignRobots
  rw [Finset.mem_filter, Finset.mem_range]

theorem foreignRobots_card_le (env : Env) (rt : RTable) :
    (foreignRobots env rt).card ≤ env.numAgents := by
  calc (foreignRobots env rt).card ≤ (Finset.range env.numAgents).card :=
        Finset.card_le_card (Finset.filter_subset _ _)
  _ = env.numAgents := Finset.card_range _

theorem foreign_of_lookup (env : Env) (rt : RTable) (c t : ℤ) (x : ℕ)
    (hx : x < env.numAgents)
    (hlk : dictLookup rt.owner (c, -1, t) = some x)
    (hne : ¬ c = (stateOf env x).location) :
    x ∈ foreignRobots env rt := by
  rw [mem_foreignRobots]
  exact ⟨hx, ((c, -1, t), x), dictLookup_mem _ _ _ hlk, rfl, rfl, hne⟩

theorem not_foreign_of_ownCellOnly (env : Env) (rt : RTable) (x : ℕ)
    (hnd : (rt.owner.map Prod.fst).Nodup) (h : OwnCellOnly env rt x) :
    x ∉ foreignRobots env rt := by
  intro hx
  rw [mem_foreignRobots] at hx
  obtain ⟨hxN, p, hp, hpx, hcell, hne⟩ := hx
  have hlk : dictLookup rt.owner p.1 = some x := by
    rw [← hpx]
    exact (mem_iff_dictLookup rt.owner p.1 p.2 hnd).mp (by rw [Prod.mk.eta]; exact hp)
  exact hne (h p.1 hlk).2

theorem no_self_swap (env : Env) (rt : RTable) (hInv : TableInv env rt)
    (loc t : ℤ) : (loc, loc, t) ∉ rt.reservation := by
  intro hmem
  obtain ⟨⟨hdom, hnd⟩, hshape⟩ := hInv
  obtain ⟨v, hv⟩ := Option.isSome_iff_exists.mp ((hdom _).mp hmem)
  have h2 := (hshape _ (dictLookup_mem _ _ _ hv)).2
  rcases h2 with ⟨h3, h4⟩ | ⟨_, _, h5⟩
  · have h3' : loc = -1 := h3
    have h4' : 0 ≤ loc := h4
    omega
  · exact h5 rfl

theorem isReserved_cell_eq (rt : RTable) (loc t : ℤ) (c : ℕ) :
    isReserved rt loc (-1) t (some c) =
      ((decide (((loc, -1, t) : RKey) ∈ rt.reservation) &&
        decide (¬ dictLookup rt.owner (loc, -1, t) = some c)) ||
       decide (((loc, loc, t) : RKey) ∈ rt.reservation)) := rfl

theorem isReserved_cell_true (env : Env) (rt : RTable) (hInv : TableInv env rt)
    (loc t : ℤ) (c : ℕ)
    (h : isReserved rt loc (-1) t (some c) = true) :
    ∃ o : ℕ, dictLookup rt.owner (loc, -1, t) = some o ∧ ¬ o = c := by
  rw [isReserved_cell_eq, Bool.or_eq_true] at h
  rcases h with h | h
  · simp only [Bool.and_eq_true, decide_eq_true_eq] at h
    obtain ⟨h1, h2⟩ := h
    obtain ⟨⟨hdom, hnd⟩, hshape⟩ := hInv
    obtain ⟨o, ho⟩ := Option.isSome_iff_exists.mp ((hdom _).mp h1)
    refine ⟨o, ho, ?_⟩
    intro hc
    subst hc
    exact h2 ho
  · simp only [decide_eq_true_eq] at h
    exact absurd h (no_self_swap env rt hInv loc t)

theorem isReserved_cell_false (env : Env) (rt : RTable) (hInv : TableInv env rt)
    (loc t : ℤ) (c : ℕ)
    (h : isReserved rt loc (-1) t (some c) = false) :
    dictLookup rt.owner (loc, -1, t) = none ∨
      dictLookup rt.owner (loc, -1, t) = some c := by
  rw [isReserved_cell_eq, Bool.or_eq_false_iff] at h
  obtain ⟨h1, _⟩ := h
  cases hlk : dictLookup rt.owner (loc, -1, t) with
  | none => exact Or.inl rfl
  | some o =>
    right
    have hmem : ((loc, -1, t) : RKey) ∈ rt.reservation := by
      rw [hInv.1.1, hlk]
      rfl
    rw [Bool.and_eq_false_iff] at h1
    rcases h1 with h1 | h1
    · rw [decide_eq_false_iff_not] at h1
      exact absurd hmem h1
    · rw [decide_eq_false_iff_not, not_not] at h1
      rw [hlk] at h1
      exact h1

theorem addResNS_cell_eq_core (rt : RTable) (loc t : ℤ) (r : ℕ) :
    addResNS rt loc (-1) t r = addResCore rt loc loc t r := rfl

theorem addResCore_cell_owner_lookup (rt : RTable) (loc t : ℤ) (r : ℕ) (k : RKey) :
    dictLookup (addResCore rt loc loc t r).owner k =
      if k = (loc, -1, t) then some r else dictLookup rt.owner k := by
  rw [addResCore_owner_lookup]
  rw [if_neg]
  rintro ⟨h1, _⟩
  exact h1 rfl

theorem lookup_addResNS_cell (rt : RTable) (loc t : ℤ) (r : ℕ) (k : RKey) :
    dictLookup (addResNS rt loc (-1) t r).owner k =
      if k = (loc, -1, t) then some r else dictLookup rt.owner k := by
  rw [addResNS_cell_eq_core, addResCore_cell_owner_lookup]

theorem reservation_addResNS_cell (rt : RTable) (loc t : ℤ) (r : ℕ) :
    (addResNS rt loc (-1) t r).reservation = insert (loc, -1, t) rt.reservation := by
  rw [addResNS_cell_eq_core, addResCore_reservation, if_neg]
  intro h
  exact h rfl

theorem addResCore_TableInv (env : Env) (rt : RTable) (s e t : ℤ) (r : ℕ)
    (hInv : TableInv env rt) (hr : r < env.numAgents) (he : 0 ≤ e)
    (hs : s = e ∨ 0 ≤ s) :
    TableInv env (addResCore rt s e t r) := by
  obtain ⟨hsync, hshape⟩ := hInv
  refine ⟨addResCore_SyncInv rt s e t r hsync, ?_⟩
  intro p hp
  by_cases hse : s = e
  · rw [addResCore_eq_neg _ _ _ _ _ hse] at hp
    rcases mem_dictUpsert _ _ _ _ hp with h | h
    · exact hshape p h
    · subst h
      exact ⟨hr, Or.inl ⟨rfl, he⟩⟩
  · rw [addResCore_eq_pos _ _ _ _ _ hse] at hp
    rcases mem_dictUpsert _ _ _ _ hp with h | h
    · rcases mem_dictUpsert _ _ _ _ h with h2 | h2
      · exact hshape p h2
      · subst h2
        exact ⟨hr, Or.inl ⟨rfl, he⟩⟩
    · subst h
      rcases hs with hs | hs
      · exact absurd hs hse
      · exact ⟨hr, Or.inr ⟨hs, he, hse⟩⟩

theorem revokeAll_TableInv (env : Env) (rt : RTable) (r : ℕ)
    (hInv : TableInv env rt) : TableInv env (revokeAll rt r).2 := by
  obtain ⟨hsync, hshape⟩ := hInv
  refine ⟨revokeAll_SyncInv rt r hsync, ?_⟩
  intro p hp
  exact hshape p ((mem_removeOwned rt.owner r p).mp hp).1

theorem lookup_revokeAll_ne (rt : RTable) (r x : ℕ) (hx : ¬ x = r)
    (hnd : (rt.owner.map Prod.fst).Nodup) (k : RKey) :
    dictLookup (revokeAll rt r).2.owner k = some x ↔
      dictLookup rt.owner k = some x := by
  have heq := dictLookup_removeOwned rt.owner r k hnd
  show dictLookup (removeOwned rt.owner r) k = some x ↔ _
  rw [heq]
  cases hlk : dictLookup rt.owner k with
  | none => simp
  | some v =>
    show (if v = r then none else some v) = some x ↔ some v = some x
    by_cases hv : v = r
    · subst hv
      rw [if_pos rfl]
      constructor
      · intro h
        exact Option.noConfusion h
      · intro h
        exact absurd (Option.some.inj h).symm hx
    · rw [if_neg hv]

theorem ownCellOnly_revokeAll_self (env : Env) (rt : RTable) (r : ℕ)
    (hnd : (rt.owner.map Prod.fst).Nodup) :
    OwnCellOnly env (revokeAll rt r).2 r := by
  intro k hk
  have heq := dictLookup_removeOwned rt.owner r k hnd
  have hk2 : dictLookup (removeOwned rt.owner r) k = some r := hk
  rw [heq] at hk2
  cases hlk : dictLookup rt.owner k with
  | none =>
    simp only [hlk] at hk2
    exact Option.noConfusion hk2
  | some v =>
    simp only [hlk] at hk2
    by_cases hv : v = r
    · rw [if_pos hv] at hk2
      exact Option.noConfusion hk2
    · rw [if_neg hv] at hk2
      exact absurd (Option.some.inj hk2) hv

theorem mem_foreignRobots_addResCore (env : Env) (rt : RTable) (s e t : ℤ)
    (r x : ℕ) (he : 0 ≤ e)
    (hx : x ∈ foreignRobots env (addResCore rt s e t r)) :
    x ∈ foreignRobots env rt ∨ (x = r ∧ ¬ e = (stateOf env r).location) := by
  rw [mem_foreignRobots] at hx
  obtain ⟨hxN, p, hp, hpx, hcell, hne⟩ := hx
  have hmem : p ∈ rt.owner ∨ p = ((e, -1, t), r) ∨ p = ((s, e, t), r) := by
    by_cases hse : s = e
    · rw [addResCore_eq_neg _ _ _ _ _ hse] at hp
      rcases mem_dictUpsert _ _ _ _ hp with h | h
      · exact Or.inl h
      · exact Or.inr (Or.inl h)
    · rw [addResCore_eq_pos _ _ _ _ _ hse] at hp
      rcases mem_dictUpsert _ _ _ _ hp with h | h
      · rcases mem_dictUpsert _ _ _ _ h with h2 | h2
        · exact Or.inl h2
        · exact Or.inr (Or.inl h2)
      · exact Or.inr (Or.inr h)
  rcases hmem with h | h | h
  · left
    rw [mem_foreignRobots]
    exact ⟨hxN, p, h, hpx, hcell, hne⟩
  · right
    subst h
    obtain rfl : r = x := hpx
    exact ⟨rfl, hne⟩
  · exfalso
    subst h
    have h2 : e = -1 := hcell
    omega

theorem mem_foreignRobots_revokeAll (env : Env) (rt : RTable) (r x : ℕ)
    (hx : x ∈ foreignRobots env (revokeAll rt r).2) :
    x ∈ foreignRobots env rt ∧ ¬ x = r := by
  rw [mem_foreignRobots] at hx
  obtain ⟨hxN, p, hp, hpx, hcell, hne⟩ := hx
  have h2 := (mem_removeOwned rt.owner r p).mp hp
  refine ⟨?_, ?_⟩
  · rw [mem_foreignRobots]
    exact ⟨hxN, p, h2.1, hpx, hcell, hne⟩
  · intro hc
    apply h2.2
    rw [hpx, hc]

theorem addResNS_own_step (env : Env) (rt : RTable) (loc t : ℤ) (r : ℕ)
    (hl : loc = (stateOf env r).location)
    (hr : r < env.numAgents) (hloc : 0 ≤ loc)
    (hInv : TableInv env rt) :
    TableInv env (addResNS rt loc (-1) t r) ∧
    (∀ x ∈ foreignRobots env (addResNS rt loc (-1) t r),
      x ∈ foreignRobots env rt) ∧
    (∀ k y, ¬ y = r →
      dictLookup (addResNS rt loc (-1) t r).owner k = some y →
      dictLookup rt.owner k = some y) ∧
    (∀ y, OwnCellOnly env rt y → OwnCellOnly env (addResNS rt loc (-1) t r) y) := by
  refine ⟨?_, ?_, ?_, ?_⟩
  · rw [addResNS_cell_eq_core]
    exact addResCore_TableInv env rt loc loc t r hInv hr hloc (Or.inl rfl)
  · intro x hx
    rw [addResNS_cell_eq_core] at hx
    rcases mem_foreignRobots_addResCore env rt loc loc t r x hloc hx with h | ⟨_, h2⟩
    · exact h
    · exact absurd hl h2
  · intro k y hy hk
    rw [lookup_addResNS_cell] at hk
    by_cases hkk : k = (loc, -1, t)
    · rw [if_pos hkk] at hk
      exact absurd (Option.some.inj hk).symm hy
    · rw [if_neg hkk] at hk
      exact hk
  · intro y h k hk
    rw [lookup_addResNS_cell] at hk
    by_cases hkk : k = (loc, -1, t)
    · rw [if_pos hkk] at hk
      obtain rfl : r = y := Option.some.inj hk
      subst hkk
      exact ⟨rfl, hl⟩
    · rw [if_neg hkk] at hk
      exact h k hk

theorem foldl_addResNS_own (env : Env) (loc : ℤ) (r : ℕ)
    (hl : loc = (stateOf env r).location)
    (hr : r < env.numAgents) (hloc : 0 ≤ loc) :
    ∀ (l : List ℤ) (rt : RTable), TableInv env rt →
      TableInv env (l.foldl (fun acc t => addResNS acc loc (-1) t r) rt) ∧
      (∀ x ∈ foreignRobots env (l.foldl (fun acc t =>
          addResNS acc loc (-1) t r) rt),
        x ∈ foreignRobots env rt) ∧
      (∀ k y, ¬ y = r →
        dictLookup (l.foldl (fun acc t =>
          addResNS acc loc (-1) t r) rt).owner k = some y →
        dictLookup rt.owner k = some y) ∧
      (∀ y, OwnCellOnly env rt y →
        OwnCellOnly env (l.foldl (fun acc t =>
          addResNS acc loc (-1) t r) rt) y) := by
  intro l
  induction l with
  | nil =>
    intro rt hInv
    exact ⟨hInv, fun x hx => hx, fun k y _ hk => hk, fun y h => h⟩
  | cons a rest ih =>
    intro rt hInv
    simp only [List.foldl_cons]
    obtain ⟨h1, h2, h3, h4⟩ := addResNS_own_step env rt loc a r hl hr hloc hInv
    obtain ⟨g1, g2, g3, g4⟩ := ih (addResNS rt loc (-1) a r) h1
    refine ⟨g1, ?_, ?_, ?_⟩
    · intro x hx
      exact h2 x (g2 x hx)
    · intro k y hy hk
      exact h3 k y hy (g3 k y hy hk)
    · intro y h
      exact g4 y (h4 y h)

theorem emptyGoalReserve_props (env : Env) (H : ℕ) (rt : RTable) (r : ℕ)
    (hr : r < env.numAgents)
    (hloc : 0 ≤ (stateOf env r).location)
    (hInv : TableInv env rt) :
    TableInv env (emptyGoalReserve H rt (stateOf env r).location r) ∧
    (∀ x ∈ foreignRobots env (emptyGoalReserve H rt (stateOf env r).location r),
      x ∈ foreignRobots env rt) ∧
    (∀ k y, ¬ y = r →
      dictLookup (emptyGoalReserve H rt (stateOf env r).location r).owner k = some y →
      dictLookup rt.owner k = some y) ∧
    (∀ y, OwnCellOnly env rt y →
      OwnCellOnly env (emptyGoalReserve H rt (stateOf env r).location r) y) := by
  obtain ⟨L, hL⟩ : ∃ L : List ℤ,
      emptyGoalReserve H rt (stateOf env r).location r =
        L.foldl (fun acc t => addResNS acc (stateOf env r).location (-1) t r) rt :=
    ⟨_, rfl⟩
  rw [hL]
  exact foldl_addResNS_own env (stateOf env r).location r rfl hr hloc L rt hInv

theorem prereserveOne_props (env : Env) (tryFix : Option (List ℕ)) (rt : RTable)
    (r : ℕ) (hr : r < env.numAgents) (hloc : 0 ≤ (stateOf env r).location)
    (hInv : TableInv env rt) (hOwnAll : ∀ y, OwnCellOnly env rt y) :
    TableInv env (prereserveOne env tryFix rt r) ∧
    ∀ y, OwnCellOnly env (prereserveOne env tryFix rt r) y := by
  have step1 := addResNS_own_step env rt (stateOf env r).location 1 r rfl hr hloc hInv
  have step2 := addResNS_own_step env (addResNS rt (stateOf env r).location (-1) 1 r)
    (stateOf env r).location 2 r rfl hr hloc step1.1
  have step3 := addResNS_own_step env
    (addResNS (addResNS rt (stateOf env r).location (-1) 1 r)
      (stateOf env r).location (-1) 2 r)
    (stateOf env r).location 3 r rfl hr hloc step2.1
  rcases hfw : getValidForwardsNeighborCell env (stateOf env r).location
      (stateOf env r).orientation with _ | cf
  · simp only [prereserveOne, hfw]
    by_cases htf : tryFixHas tryFix r = true
    · rw [if_pos htf]
      exact ⟨step2.1, fun y => step2.2.2.2 y (step1.2.2.2 y (hOwnAll y))⟩
    · rw [if_neg htf]
      exact ⟨step1.1, fun y => step1.2.2.2 y (hOwnAll y)⟩
  · simp only [prereserveOne, hfw]
    by_cases hra : robotAt env cf = true
    · rw [if_pos hra]
      by_cases htf : tryFixHas tryFix r = true
      · rw [if_pos htf]
        exact ⟨step3.1,
          fun y => step3.2.2.2 y (step2.2.2.2 y (step1.2.2.2 y (hOwnAll y)))⟩
      · rw [if_neg htf]
        exact ⟨step1.1, fun y => step1.2.2.2 y (hOwnAll y)⟩
    · rw [if_neg hra]
      exact ⟨hInv, hOwnAll⟩

theorem prereserveAll_props (env : Env) (tryFix : Option (List ℕ))
    (hlocs : LocsInRange env) :
    TableInv env (prereserveAll env tryFix ⟨∅, []⟩) ∧
    ∀ y, OwnCellOnly env (prereserveAll env tryFix ⟨∅, []⟩) y := by
  have base1 : TableInv env ⟨∅, []⟩ := by
    refine ⟨⟨fun k => ?_, ?_⟩, ?_⟩
    · simp [dictLookup]
    · simp
    · intro p hp
      simp at hp
  have base2 : ∀ y, OwnCellOnly env ⟨∅, []⟩ y := by
    intro y k hk
    simp [dictLookup] at hk
  have main : ∀ (l : List ℕ) (rt : RTable), (∀ a ∈ l, a < env.numAgents) →
      TableInv env rt → (∀ y, OwnCellOnly env rt y) →
      TableInv env (l.foldl (prereserveOne env tryFix) rt) ∧
      ∀ y, OwnCellOnly env (l.foldl (prereserveOne env tryFix) rt) y := by
    intro l
    induction l with
    | nil =>
      intro rt _ h1 h2
      exact ⟨h1, h2⟩
    | cons a rest ih =>
      intro rt hmem h1 h2
      simp only [List.foldl_cons]
      have ha : a < env.numAgents := hmem a (List.mem_cons_self a rest)
      obtain ⟨g1, g2⟩ := prereserveOne_props env tryFix rt a ha (hlocs a ha) h1 h2
      exact ih _ (fun b hb => hmem b (List.mem_cons_of_mem a hb)) g1 g2
  exact main (List.range env.numAgents) ⟨∅, []⟩
    (fun a ha => List.mem_range.mp ha) base1 base2

/-! ### The conflict-propagation cascade (`handle_conflict`) -/

theorem hcGo_loop (env : Env) (hdist : DistinctLocs env) (hlocs : LocsInRange env)
    (hc : ℤ → ℤ → ℤ → PSt → Option (List ℕ × ℕ × PSt))
    (F0 : Finset ℕ) (base : RTable)
    (hhc : ∀ (s t : ℤ) (stx : PSt) (C : ℕ),
      TableInv env stx.rt →
      dictLookup stx.rt.owner (s, -1, t) = some C →
      ¬ s = (stateOf env C).location →
      (foreignRobots env stx.rt).card < F0.card →
      ∃ ids cnt st2, hc s (-1) t stx = some (ids, cnt, st2) ∧
        HCPost env stx.rt C ids st2.rt)
    (O : ℕ) (hOF0 : O ∈ F0) (hON : O < env.numAgents)
    (loc : ℤ) (hlocO : loc = (stateOf env O).location) :
    ∀ (k step : ℕ) (stC : PSt) (ids : List ℕ) (cnt : ℕ),
      TableInv env stC.rt →
      ids.Nodup →
      O ∈ ids →
      (∀ x ∈ ids, x ∈ F0) →
      (∀ x ∈ foreignRobots env stC.rt, x ∈ F0 ∧ x ∉ ids) →
      (∀ x ∈ ids, OwnCellOnly env stC.rt x) →
      (∀ k' x, x ∉ ids →
        (dictLookup stC.rt.owner k' = some x ↔ dictLookup base.owner k' = some x)) →
      ∃ ids2 cnt2 st2,
        handleConflictF.hcGo hc loc O k step stC ids cnt = some (ids2, cnt2, st2) ∧
        TableInv env st2.rt ∧
        ids2.Nodup ∧
        O ∈ ids2 ∧
        (∀ x ∈ ids2, x ∈ F0) ∧
        (∀ x ∈ foreignRobots env st2.rt, x ∈ F0 ∧ x ∉ ids2) ∧
        (∀ x ∈ ids2, OwnCellOnly env st2.rt x) ∧
        (∀ k' x, x ∉ ids2 →
          (dictLookup st2.rt.owner k' = some x ↔
            dictLookup base.owner k' = some x)) := by
  intro k
  induction k with
  | zero =>
    intro step stC ids cnt h1 h2 h3 h4 h5 h6 h7
    exact ⟨ids, cnt, stC, rfl, h1, h2, h3, h4, h5, h6, h7⟩
  | succ k ihk =>
    intro step stC ids cnt hInvC hndIds hOids hidsF hforC hownC hpresC
    have hloc0 : 0 ≤ loc := by
      rw [hlocO]
      exact hlocs O hON
    have hstep : handleConflictF.hcGo hc loc O (k + 1) step stC ids cnt =
        (if isReserved stC.rt loc (-1) (step : ℤ) (some O) then
          match hc loc (-1) (step : ℤ) stC with
          | none => none
          | some (nids, ncnt, st2) =>
            handleConflictF.hcGo hc loc O k (step + 1)
              ⟨addResNS st2.rt loc (-1) (step : ℤ) O, st2.tape⟩
              (ids ++ nids) (cnt + ncnt)
        else
          handleConflictF.hcGo hc loc O k (step + 1)
            ⟨addResNS stC.rt loc (-1) (step : ℤ) O, stC.tape⟩ ids cnt) := rfl
    by_cases hres : isReserved stC.rt loc (-1) (step : ℤ) (some O) = true
    · obtain ⟨o2, ho2, ho2ne⟩ :=
        isReserved_cell_true env stC.rt hInvC loc (step : ℤ) O hres
      have ho2N : o2 < env.numAgents := (hInvC.2 _ (dictLookup_mem _ _ _ ho2)).1
      have hlocne : ¬ loc = (stateOf env o2).location := by
        intro hceq
        refine hdist o2 O ho2N hON ?_ (by rw [← hceq]; exact hlocO)
        intro hc2
        subst hc2
        exact ho2ne rfl
      have hcard : (foreignRobots env stC.rt).card < F0.card := by
        have hsub : foreignRobots env stC.rt ⊆ F0.erase O := by
          intro x hx
          obtain ⟨hx1, hx2⟩ := hforC x hx
          refine Finset.mem_erase.mpr ⟨?_, hx1⟩
          intro hcx
          apply hx2
          rw [hcx]
          exact hOids
        have h1 : (foreignRobots env stC.rt).card ≤ (F0.erase O).card :=
          Finset.card_le_card hsub
        have h2 : (F0.erase O).card = F0.card - 1 := Finset.card_erase_of_mem hOF0
        have h3 : 1 ≤ F0.card := Finset.card_pos.mpr ⟨O, hOF0⟩
        omega
      obtain ⟨nids, ncnt, stN, hNeq, hInvN, hndN, ho2m, hnidsF, hforN, hownN, hpresN⟩ :=
        hhc loc (step : ℤ) stC o2 hInvC ho2 hlocne hcard
      have hdisj : ∀ x ∈ nids, x ∉ ids := fun x hx => (hforC x (hnidsF x hx)).2
      have hnidsF0 : ∀ x ∈ nids, x ∈ F0 := fun x hx => (hforC x (hnidsF x hx)).1
      have hndA : (ids ++ nids).Nodup := by
        rw [List.nodup_append]
        exact ⟨hndIds, hndN, fun a ha hb => hdisj a hb ha⟩
      obtain ⟨hI2, hFor2, hNK2, hOwn2⟩ :=
        addResNS_own_step env stN.rt loc (step : ℤ) O hlocO hON hloc0 hInvN
      -- invariants for the recursive call
      have inv4 : ∀ x ∈ ids ++ nids, x ∈ F0 := by
        intro x hx
        rcases List.mem_append.mp hx with h | h
        · exact hidsF x h
        · exact hnidsF0 x h
      have inv5 : ∀ x ∈ foreignRobots env
          (⟨addResNS stN.rt loc (-1) (step : ℤ) O, stN.tape⟩ : PSt).rt,
          x ∈ F0 ∧ x ∉ ids ++ nids := by
        intro x hx
        have h1 : x ∈ foreignRobots env stN.rt := hFor2 x hx
        obtain ⟨h2, h3⟩ := hforN x h1
        obtain ⟨h4, h5⟩ := hforC x h2
        refine ⟨h4, ?_⟩
        intro hm
        rcases List.mem_append.mp hm with h | h
        · exact h5 h
        · exact h3 h
      have inv6 : ∀ x ∈ ids ++ nids, OwnCellOnly env
          (⟨addResNS stN.rt loc (-1) (step : ℤ) O, stN.tape⟩ : PSt).rt x := by
        intro x hx
        rcases List.mem_append.mp hx with h | h
        · refine hOwn2 x ?_
          intro k2 hk2
          have hxnn : x ∉ nids := fun hn => hdisj x hn h
          exact hownC x h k2 ((hpresN k2 x hxnn).mp hk2)
        · exact hOwn2 x (hownN x h)
      have inv7 : ∀ k' x, x ∉ ids ++ nids →
          (dictLookup (⟨addResNS stN.rt loc (-1) (step : ℤ) O,
              stN.tape⟩ : PSt).rt.owner k' = some x ↔
            dictLookup base.owner k' = some x) := by
        intro k' x hxA
        have hxids : x ∉ ids := fun h => hxA (List.mem_append_left _ h)
        have hxnids : x ∉ nids := fun h => hxA (List.mem_append_right _ h)
        have hL : dictLookup (addResNS stN.rt loc (-1) (step : ℤ) O).owner k' =
            if k' = (loc, -1, (step : ℤ)) then some O
            else dictLookup stN.rt.owner k' :=
          lookup_addResNS_cell stN.rt loc (step : ℤ) O k'
        show dictLookup (addResNS stN.rt loc (-1) (step : ℤ) O).owner k' = some x ↔ _
        by_cases hkk : k' = (loc, -1, (step : ℤ))
        · rw [hL, if_pos hkk]
          constructor
          · intro h
            obtain rfl : O = x := Option.some.inj h
            exact absurd hOids hxids
          · intro h
            have h2 := (hpresC k' x hxids).mpr h
            rw [hkk, ho2] at h2
            have h3 : o2 = x := Option.some.inj h2
            exact absurd (h3 ▸ ho2m) hxnids
        · rw [hL, if_neg hkk]
          exact (hpresN k' x hxnids).trans (hpresC k' x hxids)
      obtain ⟨ids2, cnt2, st2, hfin, hc1, hc2, hc3, hc4, hc5, hc6, hc7⟩ :=
        ihk (step + 1) ⟨addResNS stN.rt loc (-1) (step : ℤ) O, stN.tape⟩
          (ids ++ nids) (cnt + ncnt) hI2 hndA
          (List.mem_append_left _ hOids) inv4 inv5 inv6 inv7
      refine ⟨ids2, cnt2, st2, ?_, hc1, hc2, hc3, hc4, hc5, hc6, hc7⟩
      rw [hstep, if_pos hres, hNeq]
      exact hfin
    · have hres' : isReserved stC.rt loc (-1) (step : ℤ) (some O) = false :=
        Bool.eq_false_iff.mpr hres
      have hfree := isReserved_cell_false env stC.rt hInvC loc (step : ℤ) O hres'
      obtain ⟨hI2, hFor2, hNK2, hOwn2⟩ :=
        addResNS_own_step env stC.rt loc (step : ℤ) O hlocO hON hloc0 hInvC
      have inv5 : ∀ x ∈ foreignRobots env
          (⟨addResNS stC.rt loc (-1) (step : ℤ) O, stC.tape⟩ : PSt).rt,
          x ∈ F0 ∧ x ∉ ids := by
        intro x hx
        exact hforC x (hFor2 x hx)
      have inv6 : ∀ x ∈ ids, OwnCellOnly env
          (⟨addResNS stC.rt loc (-1) (step : ℤ) O, stC.tape⟩ : PSt).rt x :=
        fun x hx => hOwn2 x (hownC x hx)
      have inv7 : ∀ k' x, x ∉ ids →
          (dictLookup (⟨addResNS stC.rt loc (-1) (step : ℤ) O,
              stC.tape⟩ : PSt).rt.owner k' = some x ↔
            dictLookup base.owner k' = some x) := by
        intro k' x hxids
        have hL : dictLookup (addResNS stC.rt loc (-1) (step : ℤ) O).owner k' =
            if k' = (loc, -1, (step : ℤ)) then some O
            else dictLookup stC.rt.owner k' :=
          lookup_addResNS_cell stC.rt loc (step : ℤ) O k'
        show dictLookup (addResNS stC.rt loc (-1) (step : ℤ) O).owner k' = some x ↔ _
        by_cases hkk : k' = (loc, -1, (step : ℤ))
        · rw [hL, if_pos hkk]
          constructor
          · intro h
            obtain rfl : O = x := Option.some.inj h
            exact absurd hOids hxids
          · intro h
            have h2 := (hpresC k' x hxids).mpr h
            rw [hkk] at h2
            rcases hfree with hf | hf
            · rw [hf] at h2
              exact Option.noConfusion h2
            · rw [hf] at h2
              obtain rfl : O = x := Option.some.inj h2
              exact absurd hOids hxids
        · rw [hL, if_neg hkk]
          exact hpresC k' x hxids
      obtain ⟨ids2, cnt2, st2, hfin, hc1, hc2, hc3, hc4, hc5, hc6, hc7⟩ :=
        ihk (step + 1) ⟨addResNS stC.rt loc (-1) (step : ℤ) O, stC.tape⟩
          ids cnt hI2 hndIds hOids hidsF inv5 inv6 inv7
      refine ⟨ids2, cnt2, st2, ?_, hc1, hc2, hc3, hc4, hc5, hc6, hc7⟩
      rw [hstep, if_neg hres]
      exact hfin

theorem handleConflict_main (env : Env) (Rp H : ℕ)
    (hdist : DistinctLocs env) (hlocs : LocsInRange env) :
    ∀ (fuel : ℕ) (s t : ℤ) (st : PSt) (O : ℕ),
      TableInv env st.rt →
      dictLookup st.rt.owner (s, -1, t) = some O →
      ¬ s = (stateOf env O).location →
      (foreignRobots env st.rt).card < fuel →
      ∃ ids cnt st2,
        handleConflictF env Rp H fuel s (-1) t st = some (ids, cnt, st2) ∧
        HCPost env st.rt O ids st2.rt := by
  intro fuel
  induction fuel with
  | zero =>
    intro s t st O _ _ _ hcard
    omega
  | succ fuel ih =>
    intro s t st O hInv hlk hne hcard
    have hndSt : (st.rt.owner.map Prod.fst).Nodup := hInv.1.2
    have hON : O < env.numAgents := (hInv.2 _ (dictLookup_mem _ _ _ hlk)).1
    have hOF : O ∈ foreignRobots env st.rt :=
      foreign_of_lookup env st.rt s t O hON hlk hne
    have hInv1 : TableInv env (revokeAll st.rt O).2 := revokeAll_TableInv env st.rt O hInv
    have hpres1 : ∀ k' x, x ∉ [O] →
        (dictLookup (revokeAll st.rt O).2.owner k' = some x ↔
          dictLookup st.rt.owner k' = some x) := by
      intro k' x hx
      exact lookup_revokeAll_ne st.rt O x
        (fun h => hx (by rw [h]; exact List.mem_singleton_self _)) hndSt k'
    have hown1 : ∀ x ∈ [O], OwnCellOnly env (revokeAll st.rt O).2 x := by
      intro x hx
      obtain rfl := List.mem_singleton.mp hx
      exact ownCellOnly_revokeAll_self env st.rt x hndSt
    have hfor1 : ∀ x ∈ foreignRobots env (revokeAll st.rt O).2,
        x ∈ foreignRobots env st.rt ∧ x ∉ [O] := by
      intro x hx
      obtain ⟨h1, h2⟩ := mem_foreignRobots_revokeAll env st.rt O x hx
      exact ⟨h1, fun hm => h2 (List.mem_singleton.mp hm)⟩
    obtain ⟨ids2, cnt2, st2, hfin, hc1, hc2, hc3, hc4, hc5, hc6, hc7⟩ :=
      hcGo_loop env hdist hlocs (handleConflictF env Rp H fuel)
        (foreignRobots env st.rt) st.rt
        (fun s2 t2 stx C hI hlk2 hne2 hcard2 =>
          ih s2 t2 stx C hI hlk2 hne2 (by omega))
        O hOF hON (stateOf env O).location rfl
        H 0 ⟨(revokeAll st.rt O).2,
          (List.range Rp).foldl (fun tp step => setAct tp step O actW) st.tape⟩
        [O] 1 hInv1 (List.nodup_singleton O) (List.mem_singleton_self O)
        (fun x hx => by rw [List.mem_singleton.mp hx]; exact hOF)
        hfor1 hown1 hpres1
    refine ⟨ids2, cnt2, st2, ?_, hc1, hc2, hc3, hc4, hc5, hc6, hc7⟩
    have hun : handleConflictF env Rp H (fuel + 1) s (-1) t st =
        (match dictLookup st.rt.owner (s, -1, t) with
        | none => none
        | some c =>
          handleConflictF.hcGo (handleConflictF env Rp H fuel)
            (stateOf env c).location c H 0
            ⟨(revokeAll st.rt c).2,
              (List.range Rp).foldl (fun tp step => setAct tp step c actW) st.tape⟩
            [c] 1) := rfl
    rw [hun, hlk]
    exact hfin

/-! ### The waiting loop of the no-path branch of `priority_planner` -/

theorem waitLoop_main (env : Env) (Rp H hcFuel : ℕ)
    (hdist : DistinctLocs env) (hlocs : LocsInRange env)
    (hfuelN : env.numAgents < hcFuel)
    (r : ℕ) (hr : r < env.numAgents) (loc : ℤ)
    (hlocr : loc = (stateOf env r).location) :
    ∀ (k step : ℕ) (st : PSt) (acc : PAcc),
      TableInv env st.rt →
      OwnCellOnly env st.rt r →
      (∀ j : ℕ, j < step →
        dictLookup st.rt.owner (loc, -1, (j : ℤ) + 1) = some r) →
      ∃ st2 acc2,
        waitLoopGo env Rp H hcFuel r loc k step st acc = some (st2, acc2) ∧
        TableInv env st2.rt ∧
        OwnCellOnly env st2.rt r ∧
        acc2.waitingIds = acc.waitingIds ∧
        acc2.pls = acc.pls ∧
        (∀ j : ℕ, j < step + k →
          dictLookup st2.rt.owner (loc, -1, (j : ℤ) + 1) = some r) ∧
        ∃ gs : List (List ℕ),
          acc2.groups = acc.groups ++ gs ∧
          gs.flatten.Nodup ∧
          (∀ x ∈ gs.flatten, x ∈ foreignRobots env st.rt) ∧
          (∀ x ∈ foreignRobots env st2.rt,
            x ∈ foreignRobots env st.rt ∧ x ∉ gs.flatten) ∧
          (∀ x ∈ gs.flatten, OwnCellOnly env st2.rt x) ∧
          (∀ k' x, x ∉ gs.flatten → ¬ x = r →
            (dictLookup st2.rt.owner k' = some x ↔
              dictLookup st.rt.owner k' = some x)) := by
  have hloc0 : 0 ≤ loc := by
    rw [hlocr]
    exact hlocs r hr
  intro k
  induction k with
  | zero =>
    intro step st acc h1 h2 h3
    refine ⟨st, acc, rfl, h1, h2, rfl, rfl, fun j hj => h3 j (by omega), [],
      (List.append_nil _).symm, List.nodup_nil, ?_, ?_, ?_, ?_⟩
    · intro x hx
      simp at hx
    · intro x hx
      refine ⟨hx, ?_⟩
      simp
    · intro x hx
      simp at hx
    · intro k' x _ _
      exact Iff.rfl
  | succ k ihk =>
    intro step st acc hInv hOwn hold
    have hstep : waitLoopGo env Rp H hcFuel r loc (k + 1) step st acc =
        (if isReserved st.rt loc (-1) ((step : ℤ) + 1) (some r) then
          match handleConflictF env Rp H hcFuel loc (-1) ((step : ℤ) + 1) st with
          | none => none
          | some (ids, cnt, st2) =>
            waitLoopGo env Rp H hcFuel r loc k (step + 1)
              ⟨addResNS st2.rt loc (-1) ((step : ℤ) + 1) r, st2.tape⟩
              ⟨acc.pls, acc.waiting + cnt, acc.waitingIds, acc.groups ++ [ids]⟩
        else
          waitLoopGo env Rp H hcFuel r loc k (step + 1)
            ⟨addResNS st.rt loc (-1) ((step : ℤ) + 1) r, st.tape⟩ acc) := rfl
    by_cases hres : isReserved st.rt loc (-1) ((step : ℤ) + 1) (some r) = true
    · -- a foreign robot holds the waiting cell: stop it first
      obtain ⟨o2, ho2, ho2ne⟩ :=
        isReserved_cell_true env st.rt hInv loc ((step : ℤ) + 1) r hres
      have ho2N : o2 < env.numAgents := (hInv.2 _ (dictLookup_mem _ _ _ ho2)).1
      have hlocne : ¬ loc = (stateOf env o2).location := by
        intro hceq
        refine hdist o2 r ho2N hr ?_ (by rw [← hceq]; exact hlocr)
        intro hc2
        subst hc2
        exact ho2ne rfl
      have hcardlt : (foreignRobots env st.rt).card < hcFuel := by
        have := foreignRobots_card_le env st.rt
        omega
      obtain ⟨ids, cnt, stH, hHeq, hInvH, hndids, ho2m, hidsF, hforH, hownH, hpresH⟩ :=
        handleConflict_main env Rp H hdist hlocs hcFuel loc ((step : ℤ) + 1) st o2
          hInv ho2 hlocne hcardlt
      have hrids : r ∉ ids := fun h =>
        not_foreign_of_ownCellOnly env st.rt r hInv.1.2 hOwn (hidsF r h)
      have hOwnH : OwnCellOnly env stH.rt r := by
        intro k2 hk2
        exact hOwn k2 ((hpresH k2 r hrids).mp hk2)
      obtain ⟨hI2, hFor2, hNK2, hOwn2⟩ :=
        addResNS_own_step env stH.rt loc ((step : ℤ) + 1) r hlocr hr hloc0 hInvH
      have hkeyH : dictLookup stH.rt.owner (loc, -1, (step : ℤ) + 1) = none := by
        cases hlk2 : dictLookup stH.rt.owner (loc, -1, (step : ℤ) + 1) with
        | none => rfl
        | some y =>
          exfalso
          by_cases hyn : y ∈ ids
          · have h1 : loc = (stateOf env y).location :=
              (hownH y hyn (loc, -1, (step : ℤ) + 1) hlk2).2
            have hyN : y < env.numAgents :=
              ((mem_foreignRobots env st.rt y).mp (hidsF y hyn)).1
            by_cases hyr : y = r
            · subst hyr
              exact hrids hyn
            · exact hdist y r hyN hr hyr (by rw [← h1]; exact hlocr)
          · have h2 := (hpresH (loc, -1, (step : ℤ) + 1) y hyn).mp hlk2
            rw [ho2] at h2
            have h3 : o2 = y := Option.some.inj h2
            exact hyn (h3 ▸ ho2m)
      have hold2 : ∀ j : ℕ, j < step + 1 →
          dictLookup (addResNS stH.rt loc (-1) ((step : ℤ) + 1) r).owner
            (loc, -1, (j : ℤ) + 1) = some r := by
        intro j hj
        rw [lookup_addResNS_cell]
        by_cases hje : j = step
        · subst hje
          rw [if_pos rfl]
        · have hkne : ¬ ((loc, -1, (j : ℤ) + 1) : RKey) = (loc, -1, (step : ℤ) + 1) := by
            intro hkeq
            have h2 : (j : ℤ) + 1 = (step : ℤ) + 1 :=
              congrArg (fun q : RKey => q.2.2) hkeq
            have h3 : j = step := by omega
            exact hje h3
          rw [if_neg hkne]
          exact (hpresH _ r hrids).mpr (hold j (by omega))
      obtain ⟨st2, acc2, hfin, hfI, hfOwn, hfWid, hfPls, hfHold, gsr, hfGroups,
          hfNd, hfSub, hfFor, hfOwnG, hfPres⟩ :=
        ihk (step + 1) ⟨addResNS stH.rt loc (-1) ((step : ℤ) + 1) r, stH.tape⟩
          ⟨acc.pls, acc.waiting + cnt, acc.waitingIds, acc.groups ++ [ids]⟩
          hI2 (hOwn2 r hOwnH) hold2
      have hgsrStep : ∀ x ∈ gsr.flatten, x ∈ foreignRobots env st.rt ∧ x ∉ ids := by
        intro x hx
        exact hforH x (hFor2 x (hfSub x hx))
      have hjoin : ((ids :: gsr).flatten : List ℕ) = ids ++ gsr.flatten := rfl
      refine ⟨st2, acc2, ?_, hfI, hfOwn, hfWid, hfPls, ?_, ids :: gsr, ?_, ?_, ?_, ?_, ?_, ?_⟩
      · rw [hstep, if_pos hres, hHeq]
        exact hfin
      · intro j hj
        exact hfHold j (by omega)
      · rw [hfGroups]
        show acc.groups ++ [ids] ++ gsr = _
        rw [List.append_assoc]
        rfl
      · rw [hjoin, List.nodup_append]
        refine ⟨hndids, hfNd, ?_⟩
        intro a ha hb
        exact (hgsrStep a hb).2 ha
      · intro x hx
        rw [hjoin] at hx
        rcases List.mem_append.mp hx with h | h
        · exact hidsF x h
        · exact (hgsrStep x h).1
      · intro x hx
        obtain ⟨h1, h2⟩ := hfFor x hx
        obtain ⟨h3, h4⟩ := hforH x (hFor2 x h1)
        refine ⟨h3, ?_⟩
        rw [hjoin]
        intro hm
        rcases List.mem_append.mp hm with h | h
        · exact h4 h
        · exact h2 h
      · intro x hx
        rw [hjoin] at hx
        rcases List.mem_append.mp hx with h | h
        · have hxr : ¬ x = r := by
            intro hc
            subst hc
            exact hrids h
          have hxrest : x ∉ gsr.flatten := fun hm => (hgsrStep x hm).2 h
          intro k2 hk2
          refine hOwn2 x (hownH x h) k2 ?_
          exact (hfPres k2 x hxrest hxr).mp hk2
        · exact hfOwnG x h
      · intro k' x hxJ hxr
        rw [hjoin] at hxJ
        have hxids : x ∉ ids := fun h => hxJ (List.mem_append_left _ h)
        have hxrest : x ∉ gsr.flatten := fun h => hxJ (List.mem_append_right _ h)
        refine (hfPres k' x hxrest hxr).trans (Iff.trans ?_ (hpresH k' x hxids))
        rw [lookup_addResNS_cell]
        by_cases hkk : k' = (loc, -1, (step : ℤ) + 1)
        · rw [if_pos hkk]
          constructor
          · intro h
            exact absurd (Option.some.inj h).symm hxr
          · intro h
            rw [hkk] at h
            rw [hkeyH] at h
            exact Option.noConfusion h
        · rw [if_neg hkk]
    · -- the waiting cell is free (or already ours): reserve it
      have hres' : isReserved st.rt loc (-1) ((step : ℤ) + 1) (some r) = false :=
        Bool.eq_false_iff.mpr hres
      have hfree := isReserved_cell_false env st.rt hInv loc ((step : ℤ) + 1) r hres'
      obtain ⟨hI2, hFor2, hNK2, hOwn2⟩ :=
        addResNS_own_step env st.rt loc ((step : ℤ) + 1) r hlocr hr hloc0 hInv
      have hold2 : ∀ j : ℕ, j < step + 1 →
          dictLookup (addResNS st.rt loc (-1) ((step : ℤ) + 1) r).owner
            (loc, -1, (j : ℤ) + 1) = some r := by
        intro j hj
        rw [lookup_addResNS_cell]
        by_cases hje : j = step
        · subst hje
          rw [if_pos rfl]
        · have hkne : ¬ ((loc, -1, (j : ℤ) + 1) : RKey) = (loc, -1, (step : ℤ) + 1) := by
            intro hkeq
            have h2 : (j : ℤ) + 1 = (step : ℤ) + 1 :=
              congrArg (fun q : RKey => q.2.2) hkeq
            have h3 : j = step := by omega
            exact hje h3
          rw [if_neg hkne]
          exact hold j (by omega)
      obtain ⟨st2, acc2, hfin, hfI, hfOwn, hfWid, hfPls, hfHold, gsr, hfGroups,
          hfNd, hfSub, hfFor, hfOwnG, hfPres⟩ :=
        ihk (step + 1) ⟨addResNS st.rt loc (-1) ((step : ℤ) + 1) r, st.tape⟩ acc
          hI2 (hOwn2 r hOwn) hold2
      refine ⟨st2, acc2, ?_, hfI, hfOwn, hfWid, hfPls, ?_, gsr, hfGroups, hfNd,
          ?_, ?_, hfOwnG, ?_⟩
      · rw [hstep, if_neg hres]
        exact hfin
      · intro j hj
        exact hfHold j (by omega)
      · intro x hx
        exact hFor2 x (hfSub x hx)
      · intro x hx
        obtain ⟨h1, h2⟩ := hfFor x hx
        exact ⟨hFor2 x h1, h2⟩
      · intro k' x hxJ hxr
        refine (hfPres k' x hxJ hxr).trans ?_
        rw [lookup_addResNS_cell]
        by_cases hkk : k' = (loc, -1, (step : ℤ) + 1)
        · rw [if_pos hkk]
          constructor
          · intro h
            exact absurd (Option.some.inj h).symm hxr
          · intro h
            rw [hkk] at h
            rcases hfree with hf | hf
            · rw [hf] at h
              exact Option.noConfusion h
            · rw [hf] at h
              exact absurd (Option.some.inj h).symm hxr
        · rw [if_neg hkk]

/-! ### The strict path-reservation loop (`reserve_path_if_possible`) -/

theorem getD_eq_getElem_poly {α : Type} (l : List α) (i : ℕ) (d : α)
    (h : i < l.length) : l.getD i d = l[i] := by
  simp [List.getD, List.getElem?_eq_getElem h]

theorem getLastD_mem_or {α : Type} :
    ∀ (l : List α) (d : α), l.getLastD d = d ∨ l.getLastD d ∈ l
  | [], _ => Or.inl rfl
  | a :: as, d => by
    rw [List.getLastD_cons]
    rcases getLastD_mem_or as a with h | h
    · exact Or.inr (by rw [h]; exact List.mem_cons_self a as)
    · exact Or.inr (List.mem_cons_of_mem a h)

theorem lookup_addResCore_ne (rt : RTable) (s e t : ℤ) (r y : ℕ) (hy : ¬ y = r)
    (k : RKey) (hk : dictLookup (addResCore rt s e t r).owner k = some y) :
    dictLookup rt.owner k = some y := by
  rw [addResCore_owner_lookup] at hk
  split_ifs at hk with h1 h2
  · exact absurd (Option.some.inj hk).symm hy
  · exact absurd (Option.some.inj hk).symm hy
  · exact hk

theorem rppGo_props (env : Env) (H : ℕ) (path : List (ℤ × ℤ)) (r : ℕ)
    (hr : r < env.numAgents)
    (hcells : ∀ q ∈ path, 0 ≤ q.1) :
    ∀ (k step : ℕ) (rt : RTable) (lastLoc : ℤ),
      TableInv env rt → 0 ≤ lastLoc →
      TableInv env (rppGo H path r k step rt lastLoc).1 ∧
      (∀ x ∈ foreignRobots env (rppGo H path r k step rt lastLoc).1,
        x ∈ foreignRobots env rt ∨ x = r) ∧
      (∀ k' y, ¬ y = r →
        dictLookup (rppGo H path r k step rt lastLoc).1.owner k' = some y →
        dictLookup rt.owner k' = some y) ∧
      ((rppGo H path r k step rt lastLoc).2 = false →
        OwnCellOnly env (rppGo H path r k step rt lastLoc).1 r) := by
  intro k
  induction k with
  | zero =>
    intro step rt lastLoc hInv _
    refine ⟨hInv, fun x hx => Or.inl hx, fun k' y _ hk => hk, ?_⟩
    intro h
    exact absurd h (by simp [rppGo])
  | succ k ihk =>
    intro step rt lastLoc hInv hlast
    have hp1 : 0 ≤ (if step < path.length then path.getD step (0, 0)
        else path.getLastD (0, 0)).1 := by
      by_cases hstep : step < path.length
      · rw [if_pos hstep, getD_eq_getElem_poly path step (0, 0) hstep]
        exact hcells _ (List.getElem_mem hstep)
      · rw [if_neg hstep]
        rcases getLastD_mem_or path (0, 0) with h | h
        · rw [h]
        · exact hcells _ h
    have hstep2 : rppGo H path r (k + 1) step rt lastLoc =
        (match addReservation rt lastLoc
            (if step < path.length then path.getD step (0, 0)
              else path.getLastD (0, 0)).1 ((step : ℤ) + 1) r true with
        | .error _ => ((revokeAll rt r).2, false)
        | .ok rt2 => rppGo H path r k (step + 1) rt2
            (if step < path.length then path.getD step (0, 0)
              else path.getLastD (0, 0)).1) := rfl
    generalize hp : (if step < path.length then path.getD step (0, 0)
      else path.getLastD (0, 0)) = p at hstep2 hp1
    cases hadd : addReservation rt lastLoc p.1 ((step : ℤ) + 1) r true with
    | error e =>
      rw [hstep2, hadd]
      have hnd : (rt.owner.map Prod.fst).Nodup := hInv.1.2
      refine ⟨revokeAll_TableInv env rt r hInv, ?_, ?_, ?_⟩
      · intro x hx
        exact Or.inl (mem_foreignRobots_revokeAll env rt r x hx).1
      · intro k' y hy hk
        exact (lookup_revokeAll_ne rt r y hy hnd k').mp hk
      · intro _
        exact ownCellOnly_revokeAll_self env rt r hnd
    | ok rt2 =>
      have hrt2 : rt2 = addResCore rt lastLoc p.1 ((step : ℤ) + 1) r := by
        have h := addReservation_ok_state rt lastLoc p.1 ((step : ℤ) + 1) r true rt2 hadd
        rw [if_neg (by omega : ¬ p.1 = -1)] at h
        exact h
      obtain ⟨g1, g2, g3, g4⟩ := ihk (step + 1) rt2 p.1
        (by
          rw [hrt2]
          exact addResCore_TableInv env rt lastLoc p.1 _ r hInv hr hp1 (Or.inr hlast))
        hp1
      rw [hstep2, hadd]
      refine ⟨g1, ?_, ?_, g4⟩
      · intro x hx
        rcases g2 x hx with h | h
        · rw [hrt2] at h
          rcases mem_foreignRobots_addResCore env rt lastLoc p.1 _ r x hp1 h with
            h2 | ⟨h2, _⟩
          · exact Or.inl h2
          · exact Or.inr h2
        · exact Or.inr h
      · intro k' y hy hk
        have h2 := g3 k' y hy hk
        rw [hrt2] at h2
        exact lookup_addResCore_ne rt lastLoc p.1 _ r y hy k' h2

/-! ### One robot of the `priority_planner` loop -/

theorem priorityStep_main (env : Env) (Rp H : ℕ)
    (planFn : RTable → ℕ → Option (List (ℤ × ℤ))) (hcFuel : ℕ)
    (hdist : DistinctLocs env) (hlocs : LocsInRange env)
    (hfuelN : env.numAgents < hcFuel)
    (hplan : ∀ (rt : RTable) (x : ℕ), ∃ p, planFn rt x = some p ∧ ∀ q ∈ p, 0 ≤ q.1)
    (r : ℕ) (hr : r < env.numAgents) (st : PSt) (acc : PAcc)
    (hInv : TableInv env st.rt) (hOwn : OwnCellOnly env st.rt r) :
    ∃ st2 acc2,
      priorityStep env Rp H planFn hcFuel st acc r = some (st2, acc2) ∧
      TableInv env st2.rt ∧
      ∃ gs : List (List ℕ),
        acc2.groups = acc.groups ++ gs ∧
        gs.flatten.Nodup ∧
        (∀ x ∈ gs.flatten, x ∈ foreignRobots env st.rt) ∧
        (∀ x ∈ gs.flatten, OwnCellOnly env st2.rt x) ∧
        (∀ x ∈ foreignRobots env st2.rt,
          (x ∈ foreignRobots env st.rt ∨ x = r) ∧ x ∉ gs.flatten) ∧
        (∀ y, ¬ y = r → y ∉ gs.flatten →
          OwnCellOnly env st.rt y → OwnCellOnly env st2.rt y) := by
  have hloc0 : 0 ≤ (stateOf env r).location := hlocs r hr
  have hun : priorityStep env Rp H planFn hcFuel st acc r =
      (if (goalsOf env r).isEmpty then
        some (⟨emptyGoalReserve H st.rt (stateOf env r).location r, st.tape⟩, acc)
      else
        match planFn st.rt r with
        | none => none
        | some path =>
          if path.isEmpty then
            waitLoopGo env Rp H hcFuel r (stateOf env r).location H 0 st
              ⟨acc.pls, acc.waiting + 1, acc.waitingIds ++ [r], acc.groups⟩
          else
            match reservePathIfPossible H st.rt (stateOf env r).location path r with
            | (rt2, true) =>
              some (⟨rt2, updateNextActions env Rp st.tape path r false⟩,
                ⟨acc.pls + path.length, acc.waiting, acc.waitingIds, acc.groups⟩)
            | (rt2, false) =>
              waitLoopGo env Rp H hcFuel r (stateOf env r).location H 0 ⟨rt2, st.tape⟩
                ⟨acc.pls, acc.waiting + 1, acc.waitingIds ++ [r], acc.groups⟩) := rfl
  by_cases hg : (goalsOf env r).isEmpty = true
  · obtain ⟨e1, e2, e3, e4⟩ := emptyGoalReserve_props env H st.rt r hr hloc0 hInv
    refine ⟨⟨emptyGoalReserve H st.rt (stateOf env r).location r, st.tape⟩, acc,
      ?_, e1, [], (List.append_nil _).symm, List.nodup_nil, ?_, ?_, ?_, ?_⟩
    · rw [hun, if_pos hg]
    · intro x hx
      simp at hx
    · intro x hx
      simp at hx
    · intro x hx
      exact ⟨Or.inl (e2 x hx), by simp⟩
    · intro y hy _ hOy k2 hk2
      exact hOy k2 (e3 k2 y hy hk2)
  · obtain ⟨path, hpath, hcells⟩ := hplan st.rt r
    by_cases hpe : path.isEmpty = true
    · obtain ⟨st2, acc2, heq, hI, hOwnR, hWid, hPls, hHold, gs, hGroups, hNd,
          hSub, hFor, hOwnG, hPres⟩ :=
        waitLoop_main env Rp H hcFuel hdist hlocs hfuelN r hr
          (stateOf env r).location rfl H 0 st
          ⟨acc.pls, acc.waiting + 1, acc.waitingIds ++ [r], acc.groups⟩
          hInv hOwn (fun j hj => absurd hj (by omega))
      refine ⟨st2, acc2, ?_, hI, gs, hGroups, hNd, hSub, hOwnG, ?_, ?_⟩
      · rw [hun, if_neg hg]
        simp only [hpath]
        rw [if_pos hpe]
        exact heq
      · intro x hx
        obtain ⟨h1, h2⟩ := hFor x hx
        exact ⟨Or.inl h1, h2⟩
      · intro y hy hyg hOy k2 hk2
        exact hOy k2 ((hPres k2 y hyg hy).mp hk2)
    · rcases hrpp : reservePathIfPossible H st.rt (stateOf env r).location path r with
        ⟨rt2, ok⟩
      have hprops := rppGo_props env H path r hr hcells H 0 st.rt
        (stateOf env r).location hInv hloc0
      rw [show rppGo H path r H 0 st.rt (stateOf env r).location =
        reservePathIfPossible H st.rt (stateOf env r).location path r from rfl,
        hrpp] at hprops
      obtain ⟨p1, p2, p3, p4⟩ := hprops
      cases ok with
      | true =>
        refine ⟨⟨rt2, updateNextActions env Rp st.tape path r false⟩,
          ⟨acc.pls + path.length, acc.waiting, acc.waitingIds, acc.groups⟩,
          ?_, p1, [], (List.append_nil _).symm, List.nodup_nil, ?_, ?_, ?_, ?_⟩
        · rw [hun, if_neg hg]
          simp only [hpath]
          rw [if_neg hpe]
          simp only [hrpp]
        · intro x hx
          simp at hx
        · intro x hx
          simp at hx
        · intro x hx
          rcases p2 x hx with h | h
          · exact ⟨Or.inl h, by simp⟩
          · exact ⟨Or.inr h, by simp⟩
        · intro y hy _ hOy k2 hk2
          exact hOy k2 (p3 k2 y hy hk2)
      | false =>
        have hOwn2 : OwnCellOnly env rt2 r := p4 rfl
        have hrnf : r ∉ foreignRobots env rt2 :=
          not_foreign_of_ownCellOnly env rt2 r p1.1.2 hOwn2
        obtain ⟨st2, acc2, heq, hI, hOwnR, hWid, hPls, hHold, gs, hGroups, hNd,
            hSub, hFor, hOwnG, hPres⟩ :=
          waitLoop_main env Rp H hcFuel hdist hlocs hfuelN r hr
            (stateOf env r).location rfl H 0 ⟨rt2, st.tape⟩
            ⟨acc.pls, acc.waiting + 1, acc.waitingIds ++ [r], acc.groups⟩
            p1 hOwn2 (fun j hj => absurd hj (by omega))
        have hsub' : ∀ x ∈ gs.flatten, x ∈ foreignRobots env st.rt := by
          intro x hx
          rcases p2 x (hSub x hx) with h | h
          · exact h
          · exact absurd (h ▸ hSub x hx) hrnf
        refine ⟨st2, acc2, ?_, hI, gs, hGroups, hNd, hsub', hOwnG, ?_, ?_⟩
        · rw [hun, if_neg hg]
          simp only [hpath]
          rw [if_neg hpe]
          simp only [hrpp]
          exact heq
        · intro x hx
          obtain ⟨h1, h2⟩ := hFor x hx
          exact ⟨p2 x h1, h2⟩
        · intro y hy hyg hOy k2 hk2
          exact hOy k2 (p3 k2 y hy ((hPres k2 y hyg hy).mp hk2))

/-! ### The full robot fold of `priority_planner` -/

theorem priorityFold_main (env : Env) (Rp H : ℕ)
    (planFn : RTable → ℕ → Option (List (ℤ × ℤ))) (hcFuel : ℕ)
    (hdist : DistinctLocs env) (hlocs : LocsInRange env)
    (hfuelN : env.numAgents < hcFuel)
    (hplan : ∀ (rt : RTable) (x : ℕ), ∃ p, planFn rt x = some p ∧ ∀ q ∈ p, 0 ≤ q.1) :
    ∀ (rs : List ℕ) (st : PSt) (acc : PAcc),
      rs.Nodup →
      (∀ y ∈ rs, y < env.numAgents) →
      TableInv env st.rt →
      (∀ y ∈ rs, OwnCellOnly env st.rt y) →
      acc.groups.flatten.Nodup →
      (∀ x ∈ acc.groups.flatten, OwnCellOnly env st.rt x) →
      (∀ x ∈ acc.groups.flatten, x ∉ rs) →
      ∃ st2 acc2,
        priorityFold env Rp H planFn hcFuel rs st acc = some (st2, acc2) ∧
        acc2.groups.flatten.Nodup := by
  intro rs
  induction rs with
  | nil =>
    intro st acc _ _ _ _ hnd _ _
    exact ⟨st, acc, rfl, hnd⟩
  | cons r rs ih =>
    intro st acc hndrs hrsN hInv hOwnRs hndJ hOwnJ hJrs
    have hndrs2 := List.nodup_cons.mp hndrs
    obtain ⟨st2, acc2, heq, hInv2, gs, hgroups, hgsnd, hgsF, hgsOwn, hfor2, htrans⟩ :=
      priorityStep_main env Rp H planFn hcFuel hdist hlocs hfuelN hplan r
        (hrsN r (List.mem_cons_self r rs)) st acc hInv
        (hOwnRs r (List.mem_cons_self r rs))
    have hub : ∀ x ∈ acc.groups.flatten, x ∉ foreignRobots env st.rt := by
      intro x hx
      exact not_foreign_of_ownCellOnly env st.rt x hInv.1.2 (hOwnJ x hx)
    have hrsnf : ∀ y ∈ rs, y ∉ foreignRobots env st.rt := by
      intro y hy
      exact not_foreign_of_ownCellOnly env st.rt y hInv.1.2
        (hOwnRs y (List.mem_cons_of_mem r hy))
    have hnewflat : acc2.groups.flatten = acc.groups.flatten ++ gs.flatten := by
      rw [hgroups, List.flatten_append]
    have hndJ2 : acc2.groups.flatten.Nodup := by
      rw [hnewflat, List.nodup_append]
      refine ⟨hndJ, hgsnd, ?_⟩
      intro a ha hb
      exact hub a ha (hgsF a hb)
    have hOwnJ2 : ∀ x ∈ acc2.groups.flatten, OwnCellOnly env st2.rt x := by
      intro x hx
      rw [hnewflat] at hx
      rcases List.mem_append.mp hx with h | h
      · have hxr : ¬ x = r := by
          intro hc
          exact hJrs x h (by rw [hc]; exact List.mem_cons_self r rs)
        have hxg : x ∉ gs.flatten := fun hm => hub x h (hgsF x hm)
        exact htrans x hxr hxg (hOwnJ x h)
      · exact hgsOwn x h
    have hJrs2 : ∀ x ∈ acc2.groups.flatten, x ∉ rs := by
      intro x hx
      rw [hnewflat] at hx
      rcases List.mem_append.mp hx with h | h
      · intro hm
        exact hJrs x h (List.mem_cons_of_mem r hm)
      · intro hm
        exact hrsnf x hm (hgsF x h)
    have hOwnRs2 : ∀ y ∈ rs, OwnCellOnly env st2.rt y := by
      intro y hy
      have hyr : ¬ y = r := by
        intro hc
        exact hndrs2.1 (hc ▸ hy)
      have hyg : y ∉ gs.flatten := fun hm => hrsnf y hy (hgsF y hm)
      exact htrans y hyr hyg (hOwnRs y (List.mem_cons_of_mem r hy))
    obtain ⟨st3, acc3, heq3, hnd3⟩ := ih st2 acc2 hndrs2.2
      (fun y hy => hrsN y (List.mem_cons_of_mem r hy)) hInv2 hOwnRs2 hndJ2 hOwnJ2 hJrs2
    refine ⟨st3, acc3, ?_, hnd3⟩
    have hun : priorityFold env Rp H planFn hcFuel (r :: rs) st acc =
        (match priorityStep env Rp H planFn hcFuel st acc r with
        | none => none
        | some (st2, acc2) => priorityFold env Rp H planFn hcFuel rs st2 acc2) := rfl
    rw [hun, heq]
    exact heq3

/-- **C6**: under the precondition that all robots occupy pairwise-distinct
(real) cells, every `handle_conflict` cascade triggered within one
`priority_planner` call terminates — recursion depth bounded by the number
of robots, so fuel `numAgents + 1` (any `hcFuel > numAgents`) never runs
out and the coordinator returns a result — and no robot is stopped
(revoked and overwritten to WAIT) more than once per coordinator call: the
concatenation of all collision groups collected by the call contains no
robot id twice.  The single-agent planner is abstracted by any total
`planFn` returning grid cells. -/
theorem handle_conflict_terminates_no_double_stop (env : Env) (Rp H hcFuel : ℕ)
    (planFn : RTable → ℕ → Option (List (ℤ × ℤ)))
    (order : List ℕ) (tryFix : Option (List ℕ))
    (hdist : DistinctLocs env) (hlocs : LocsInRange env)
    (hfuelN : env.numAgents < hcFuel)
    (hplan : ∀ (rt : RTable) (x : ℕ), ∃ p, planFn rt x = some p ∧ ∀ q ∈ p, 0 ≤ q.1)
    (hord : order.Nodup) (hordN : ∀ y ∈ order, y < env.numAgents) :
    ∃ res, priorityPlanner env Rp H planFn hcFuel order tryFix = some res ∧
      res.groups.flatten.Nodup := by
  obtain ⟨hpre1, hpre2⟩ := prereserveAll_props env tryFix hlocs
  have horder : (if order.isEmpty = true then List.range env.numAgents else order).Nodup ∧
      ∀ y ∈ (if order.isEmpty = true then List.range env.numAgents else order),
        y < env.numAgents := by
    by_cases ho : order.isEmpty = true
    · rw [if_pos ho]
      exact ⟨List.nodup_range _, fun y hy => List.mem_range.mp hy⟩
    · rw [if_neg ho]
      exact ⟨hord, hordN⟩
  obtain ⟨st2, acc2, heq, hnd⟩ := priorityFold_main env Rp H planFn hcFuel hdist hlocs
    hfuelN hplan (if order.isEmpty = true then List.range env.numAgents else order)
    ⟨prereserveAll env tryFix ⟨∅, []⟩,
      List.replicate Rp (List.replicate env.currStates.length actW)⟩
    ⟨0, 0, [], []⟩ horder.1 horder.2 hpre1 (fun y _ => hpre2 y)
    List.nodup_nil (fun x hx => absurd hx (by simp)) (fun x hx => absurd hx (by simp))
  refine ⟨⟨st2.tape.headD [], acc2.pls, acc2.waiting, acc2.waitingIds, acc2.groups,
    st2.tape, st2.rt⟩, ?_, hnd⟩
  have hun : priorityPlanner env Rp H planFn hcFuel order tryFix =
      (match priorityFold env Rp H planFn hcFuel
          (if order.isEmpty = true then List.range env.numAgents else order)
          ⟨prereserveAll env tryFix ⟨∅, []⟩,
            List.replicate Rp (List.replicate env.currStates.length actW)⟩
          ⟨0, 0, [], []⟩ with
      | none => none
      | some (st, acc) =>
        some ⟨st.tape.headD [], acc.pls, acc.waiting, acc.waitingIds, acc.groups,
          st.tape, st.rt⟩) := rfl
  rw [hun, heq]

/-- Closed instance of the C6 theorem: two robots on a 1×2 empty grid at
distinct cells, identity order, planner always answering the empty path. -/
theorem handle_conflict_terminates_no_double_stop_sample :
    ∃ res, priorityPlanner
        ⟨1, 2, fun _ => false, 2, [⟨0, 0⟩, ⟨1, 0⟩], [[(1, 0)], [(0, 0)]]⟩
        1 2 (fun _ _ => some []) 3 [0, 1] none = some res ∧
      res.groups.flatten.Nodup :=
  handle_conflict_terminates_no_double_stop
    ⟨1, 2, fun _ => false, 2, [⟨0, 0⟩, ⟨1, 0⟩], [[(1, 0)], [(0, 0)]]⟩
    1 2 3 (fun _ _ => some []) [0, 1] none
    (by
      intro i j hi hj hne
      interval_cases i <;> interval_cases j <;> simp_all [stateOf])
    (by
      intro i hi
      interval_cases i <;> simp [stateOf])
    (by norm_num)
    (fun rt x => ⟨[], rfl, by simp⟩)
    (by simp)
    (by decide)

/-! ### `space_time_plan` when the robot already stands on its goal (C10) -/

theorem spaceTimePlan_start_eq_goal (env : Env) (hfun : ℤ → ℤ → ℤ → ℤ)
    (fuel : ℕ) (hfuel : 1 ≤ fuel) (start dir : ℤ) (robot : ℕ) (rt : RTable) :
    spaceTimePlan env hfun fuel start dir start robot rt = some [] := by
  obtain ⟨f, rfl⟩ : ∃ f, fuel = f + 1 := ⟨fuel - 1, by omega⟩
  show spaceTimePlanGo env hfun start robot rt (f + 1)
    [(0 + hfun start dir start, hfun start dir start, 0,
      (start, dir, 0, hfun start dir start))] ∅
    [((start * 4 + dir, 0), none)] = some []
  have h1 : spaceTimePlanGo env hfun start robot rt (f + 1)
      [(0 + hfun start dir start, hfun start dir start, 0,
        (start, dir, 0, hfun start dir start))] ∅
      [((start * 4 + dir, 0), none)] =
      (if ((start * 4 + dir, 0) : ℤ × ℤ) ∈ (∅ : Finset (ℤ × ℤ)) then
        spaceTimePlanGo env hfun start robot rt f [] ∅ [((start * 4 + dir, 0), none)]
      else if start = start then
        reconstructPath [((start * 4 + dir, 0), none)] (f + 1)
          (start, dir, 0, hfun start dir start) []
      else
        match expandNeighbors env hfun start robot rt
            (start, dir, 0, hfun start dir start)
            (getNeighbors env start dir ++ [(start, dir)]) []
            [((start * 4 + dir, 0), none)]
            (insert ((start * 4 + dir, 0) : ℤ × ℤ) ∅) with
        | (opn2, parent2) =>
          spaceTimePlanGo env hfun start robot rt f opn2
            (insert ((start * 4 + dir, 0) : ℤ × ℤ) ∅) parent2) := rfl
  rw [h1, if_neg (Finset.not_mem_empty _), if_pos rfl]
  have h2 : alistLookup [((start * 4 + dir, (0 : ℤ)), (none : Option NodeInfo))]
      (start * 4 + dir, 0) = some none := by
    show (if ((start * 4 + dir, (0 : ℤ)) : ℤ × ℤ) = (start * 4 + dir, 0) then
        some (none : Option NodeInfo)
      else alistLookup [] (start * 4 + dir, 0)) = some none
    rw [if_pos rfl]
  have h3 : reconstructPath [((start * 4 + dir, 0), none)] (f + 1)
      (start, dir, 0, hfun start dir start) [] =
      (match alistLookup [((start * 4 + dir, (0 : ℤ)), (none : Option NodeInfo))]
          (start * 4 + dir, 0) with
      | none => none
      | some none => some ([((start : ℤ), (dir : ℤ))].dropLast.reverse)
      | some (some pinfo) =>
        reconstructPath [((start * 4 + dir, 0), none)] f pinfo [(start, dir)]) := rfl
  rw [h3, h2]
  rfl

/-- **C10**: an `A*` call whose start cell equals the goal cell returns the
empty list — the same value as the no-path result — and consequently the
priority coordinator treats a robot already standing on its goal (with a
non-empty goal queue, so the single-agent planner answers the empty path)
as a no-path robot: it is appended to `waiting_robot_ids` and its current
cell is reserved for every `t ∈ [1, H]` through the wait branch. -/
theorem start_on_goal_is_no_path_and_waits (env : Env) (hfun : ℤ → ℤ → ℤ → ℤ)
    (Rp H hcFuel : ℕ) (planFn : RTable → ℕ → Option (List (ℤ × ℤ)))
    (r : ℕ) (st : PSt) (acc : PAcc)
    (hdist : DistinctLocs env) (hlocs : LocsInRange env)
    (hfuelN : env.numAgents < hcFuel) (hr : r < env.numAgents)
    (hInv : TableInv env st.rt) (hOwn : OwnCellOnly env st.rt r)
    (hgoal : ¬ (goalsOf env r).isEmpty = true)
    (hplanr : planFn st.rt r = some []) :
    (∀ (start dir : ℤ) (robot : ℕ) (rt : RTable) (fuel : ℕ), 1 ≤ fuel →
      spaceTimePlan env hfun fuel start dir start robot rt = some []) ∧
    ∃ st2 acc2,
      priorityStep env Rp H planFn hcFuel st acc r = some (st2, acc2) ∧
      acc2.waitingIds = acc.waitingIds ++ [r] ∧
      ∀ j : ℕ, j < H →
        (((stateOf env r).location, (-1 : ℤ), (j : ℤ) + 1) : RKey) ∈
          st2.rt.reservation := by
  constructor
  · intro start dir robot rt fuel hfuel
    exact spaceTimePlan_start_eq_goal env hfun fuel hfuel start dir robot rt
  · obtain ⟨st2, acc2, heq, hI, hOwnR, hWid, hPls, hHold, gs, hGroups, hNd,
        hSub, hFor, hOwnG, hPres⟩ :=
      waitLoop_main env Rp H hcFuel hdist hlocs hfuelN r hr
        (stateOf env r).location rfl H 0 st
        ⟨acc.pls, acc.waiting + 1, acc.waitingIds ++ [r], acc.groups⟩
        hInv hOwn (fun j hj => absurd hj (by omega))
    have hun : priorityStep env Rp H planFn hcFuel st acc r =
        (if (goalsOf env r).isEmpty then
          some (⟨emptyGoalReserve H st.rt (stateOf env r).location r, st.tape⟩, acc)
        else
          match planFn st.rt r with
          | none => none
          | some path =>
            if path.isEmpty then
              waitLoopGo env Rp H hcFuel r (stateOf env r).location H 0 st
                ⟨acc.pls, acc.waiting + 1, acc.waitingIds ++ [r], acc.groups⟩
            else
              match reservePathIfPossible H st.rt (stateOf env r).location path r with
              | (rt2, true) =>
                some (⟨rt2, updateNextActions env Rp st.tape path r false⟩,
                  ⟨acc.pls + path.length, acc.waiting, acc.waitingIds, acc.groups⟩)
              | (rt2, false) =>
                waitLoopGo env Rp H hcFuel r (stateOf env r).location H 0 ⟨rt2, st.tape⟩
                  ⟨acc.pls, acc.waiting + 1, acc.waitingIds ++ [r], acc.groups⟩) := rfl
    refine ⟨st2, acc2, ?_, hWid, ?_⟩
    · rw [hun, if_neg hgoal]
      simp only [hplanr]
      exact heq
    · intro j hj
      have h1 := hHold j (by omega)
      rw [hI.1.1, h1]
      rfl

/-- Closed instance of the C10 theorem: one robot on a 1×2 empty grid,
standing at cell 0 with goal cell 0, empty table, trivial heuristic. -/
theorem start_on_goal_is_no_path_and_waits_sample :
    (∀ (start dir : ℤ) (robot : ℕ) (rt : RTable) (fuel : ℕ), 1 ≤ fuel →
      spaceTimePlan ⟨1, 2, fun _ => false, 1, [⟨0, 0⟩], [[(0, 0)]]⟩
        (fun _ _ _ => 0) fuel start dir start robot rt = some []) ∧
    ∃ st2 acc2,
      priorityStep ⟨1, 2, fun _ => false, 1, [⟨0, 0⟩], [[(0, 0)]]⟩ 1 1
        (fun _ _ => some []) 2 ⟨⟨∅, []⟩, [[3]]⟩ ⟨0, 0, [], []⟩ 0 = some (st2, acc2) ∧
      acc2.waitingIds = [] ++ [0] ∧
      ∀ j : ℕ, j < 1 →
        (((stateOf ⟨1, 2, fun _ => false, 1, [⟨0, 0⟩], [[(0, 0)]]⟩ 0).location,
          (-1 : ℤ), (j : ℤ) + 1) : RKey) ∈ st2.rt.reservation :=
  start_on_goal_is_no_path_and_waits
    ⟨1, 2, fun _ => false, 1, [⟨0, 0⟩], [[(0, 0)]]⟩ (fun _ _ _ => 0)
    1 1 2 (fun _ _ => some []) 0 ⟨⟨∅, []⟩, [[3]]⟩ ⟨0, 0, [], []⟩
    (by
      intro i j hi hj hne
      exfalso
      have hi' : i < 1 := hi
      have hj' : j < 1 := hj
      omega)
    (by
      intro i hi
      have hi' : i < 1 := hi
      interval_cases i
      decide)
    (by decide)
    (by decide)
    ⟨⟨fun k => by simp [dictLookup], by simp⟩, by simp⟩
    (fun k hk => by simp [dictLookup] at hk)
    (by decide)
    rfl

end STAPlanner
